import Mathlib

/-!
# tskv: a versioned key-value overlay

A shallow embedding of the path addressing (`Tree`, `MakeTree`, `Tree.MakePath`,
`Value.MakePath`) and of the command functions of `main.go` (`setKey`, `rollback`,
`getKey`, `listVersions`), with the library functions they call (`path.Join`,
`path.Clean`, `bytes.TrimRight`).

Conventions.
* A Go `string` is a sequence of bytes; it is a `List Char` (`Str`) here, one element for
  each byte.  `path.Clean` compares elements with `/` and `.` only and copies everything
  else through unchanged.
* A Go `[]byte` is an `Option (List UInt8)` (`GoBytes`): `none` is the nil slice,
  `some []` the empty non-nil slice.
* A Go pointer `*Tree` is an `Option Tree`: `none` is the nil pointer.
* `panic(err)` is the result `Except.error err`.
* The store is an interface value in `main.go`; here it is a parameter, a record of
  functions that thread an abstract store state.  The calls a command makes are read
  from a journal the store keeps (`Store.logged`), not written by the command.
-/

namespace Tskv

/-! ## Strings and byte slices -/

/-- Go `string`. -/
abbrev Str := List Char

/-- Go `[]byte`; `none` is the nil slice. -/
abbrev GoBytes := Option (List UInt8)

/-- The bytes a slice holds (`len` many); the nil slice holds none. -/
def GoBytes.toList : GoBytes → List UInt8
  | none => []
  | some l => l

/-! ## `path.Clean` and `path.Join` (Go standard library, package `path`) -/

/-- The inner loop of the `..` case of `path.Clean`, entered after `out.w--`:
`for out.w > dotdot && out.index(out.w) != '/' { out.w-- }`.  The argument is the
current `out.w`, the result the final `out.w`; `out` is the buffer content before
the `..` element was met, which is all the loop reads. -/
def backtrack (out : List Char) (dotdot : Nat) : Nat → Nat
  | 0 => 0
  | w + 1 =>
    if dotdot < w + 1 ∧ out[w + 1]? ≠ some '/' then backtrack out dotdot w else w + 1

/-- The copy loop of the default case of `path.Clean`:
`for ; r < n && path[r] != '/'; r++ { out.append(path[r]) }`.  The first argument
is the unread input `path[r:]`, the second the buffer; both are returned. -/
def copyElem : List Char → List Char → List Char × List Char
  | [], out => ([], out)
  | c :: rest, out => if c = '/' then (c :: rest, out) else copyElem rest (out ++ [c])

/-- The main loop `for r < n { switch ... }` of `path.Clean`.  The state is the
unread input `path[r:]`, the bytes `out` holds (its length is `out.w`, `append` adds
a byte at its end, `index(i)` reads byte `i`) and the index `dotdot`; every iteration
consumes at least one input byte, so the fuel (the length of the path) is never
exhausted. -/
def cleanLoop (rooted : Bool) : Nat → List Char → List Char → Nat → List Char
  | 0, _, out, _ => out
  | _ + 1, [], out, _ => out
  | fuel + 1, c :: rest, out, dotdot =>
    if c = '/' then
      -- empty path element
      cleanLoop rooted fuel rest out dotdot
    else if c = '.' ∧ (rest = [] ∨ rest.head? = some '/') then
      -- . element
      cleanLoop rooted fuel rest out dotdot
    else if c = '.' ∧ rest.head? = some '.' ∧
        (rest.tail = [] ∨ rest.tail.head? = some '/') then
      -- .. element: remove to last /
      if dotdot < out.length then
        -- can backtrack
        cleanLoop rooted fuel rest.tail
          (out.take (backtrack out dotdot (out.length - 1))) dotdot
      else if rooted = false then
        -- cannot backtrack, but not rooted, so append .. element
        let out1 := if 0 < out.length then out ++ ['/'] else out
        let out2 := out1 ++ ['.', '.']
        cleanLoop rooted fuel rest.tail out2 out2.length
      else
        cleanLoop rooted fuel rest.tail out dotdot
    else
      -- real path element: add slash if needed, then copy the element
      let out1 :=
        if (rooted = true ∧ out.length ≠ 1) ∨ (rooted = false ∧ out.length ≠ 0)
        then out ++ ['/'] else out
      let p := copyElem (c :: rest) out1
      cleanLoop rooted fuel p.1 p.2 dotdot

/-- Go `path.Clean`: the shortest path name equivalent to `path` by purely lexical
processing.  The buffer `out` is kept as the bytes it holds; `CleanLazy` below is the source
with its `lazybuf` and its indices, and `CleanLazy_eq_Clean` shows it returns this. -/
def Clean (path : Str) : Str :=
  if path = [] then ['.']
  else
    let rooted : Bool := decide (path.head? = some '/')
    let out :=
      if rooted then cleanLoop rooted path.length path.tail ['/'] 1
      else cleanLoop rooted path.length path [] 0
    -- Turn empty string into "."
    if out.length = 0 then ['.'] else out

/-- The loop body of `path.Join`: an element is appended, after a separating slash
when the buffer is not empty, unless the buffer and the element are both empty. -/
def joinStep (buf : List Char) (e : Str) : List Char :=
  if 0 < buf.length ∨ e ≠ [] then
    (if 0 < buf.length then buf ++ ['/'] else buf) ++ e
  else buf

/-- Go `path.Join`: joins the elements with slashes, ignoring leading empty
elements, and cleans the result; all elements empty gives the empty string. -/
def Join (elem : List Str) : Str :=
  if (elem.map List.length).sum = 0 then []
  else Clean (elem.foldl joinStep [])

/-! ### The source of `path.Clean`, on its `lazybuf` -/

/-- The buffer `type lazybuf struct { s string; buf []byte; w int }` of package `path`; `buf`
is nil until the output differs from `s`. -/
structure lazybuf where
  s : List Char
  buf : Option (List Char)
  w : Nat

/-- The method `(b *lazybuf) index(i)`; `none` is an index out of range. -/
def lazybuf.index (b : lazybuf) (i : Nat) : Option Char :=
  match b.buf with
  | some buf => buf[i]?
  | none => b.s[i]?

/-- The method `(b *lazybuf) append(c)`; `none` is an index out of range. -/
def lazybuf.append (b : lazybuf) (c : Char) : Option lazybuf :=
  match b.buf with
  | none =>
    if b.w < b.s.length ∧ b.s[b.w]? = some c then some { b with w := b.w + 1 }
    else if b.w ≤ b.s.length then
      -- b.buf = make([]byte, len(b.s)); copy(b.buf, b.s[:b.w])
      let buf := b.s.take b.w ++ List.replicate (b.s.length - b.w) (Char.ofNat 0)
      if b.w < buf.length then some { b with buf := some (buf.set b.w c), w := b.w + 1 }
      else none
    else none
  | some buf =>
    if b.w < buf.length then some { b with buf := some (buf.set b.w c), w := b.w + 1 }
    else none

/-- The method `(b *lazybuf) string()`; `none` is a slice bound out of range. -/
def lazybuf.string (b : lazybuf) : Option Str :=
  match b.buf with
  | none => if b.w ≤ b.s.length then some (b.s.take b.w) else none
  | some buf => if b.w ≤ buf.length then some (buf.take b.w) else none

/-- The loop `for out.w > dotdot && out.index(out.w) != '/' { out.w-- }` on the `lazybuf`:
from the current `out.w` to the final one. -/
def lazyBacktrack (out : lazybuf) (dotdot : Nat) : Nat → Option Nat
  | 0 => some 0
  | w + 1 =>
    if dotdot < w + 1 then
      match out.index (w + 1) with
      | none => none
      | some ch => if ch ≠ '/' then lazyBacktrack out dotdot w else some (w + 1)
    else some (w + 1)

/-- The loop `for ; r < n && path[r] != '/'; r++ { out.append(path[r]) }` on the `lazybuf`:
the final `r` and buffer. -/
def lazyCopy (path : List Char) : Nat → Nat → lazybuf → Option (Nat × lazybuf)
  | 0, r, out => some (r, out)
  | fuel + 1, r, out =>
    match path[r]? with
    | none => some (r, out)
    | some ch =>
      if ch ≠ '/' then
        match out.append ch with
        | none => none
        | some out1 => lazyCopy path fuel (r + 1) out1
      else some (r, out)

/-- The loop `for r < n { switch ... }` of `path.Clean` as the source has it, on the index `r`
and the `lazybuf`; `none` is an index out of range. -/
def lazyLoop (path : List Char) (rooted : Bool) : Nat → Nat → lazybuf → Nat → Option lazybuf
  | 0, _, out, _ => some out
  | fuel + 1, r, out, dotdot =>
    if r < path.length then
      if path[r]? = some '/' then
        lazyLoop path rooted fuel (r + 1) out dotdot
      else if path[r]? = some '.' ∧ (r + 1 = path.length ∨ path[r + 1]? = some '/') then
        lazyLoop path rooted fuel (r + 1) out dotdot
      else if path[r]? = some '.' ∧ path[r + 1]? = some '.' ∧
          (r + 2 = path.length ∨ path[r + 2]? = some '/') then
        if dotdot < out.w then
          match lazyBacktrack out dotdot (out.w - 1) with
          | none => none
          | some w => lazyLoop path rooted fuel (r + 2) { out with w := w } dotdot
        else if rooted = false then
          match (if 0 < out.w then out.append '/' else some out) with
          | none => none
          | some out1 =>
            match out1.append '.' with
            | none => none
            | some out2 =>
              match out2.append '.' with
              | none => none
              | some out3 => lazyLoop path rooted fuel (r + 2) out3 out3.w
        else lazyLoop path rooted fuel (r + 2) out dotdot
      else
        match (if (rooted = true ∧ out.w ≠ 1) ∨ (rooted = false ∧ out.w ≠ 0)
            then out.append '/' else some out) with
        | none => none
        | some out1 =>
          match lazyCopy path path.length r out1 with
          | none => none
          | some p => lazyLoop path rooted fuel p.1 p.2 dotdot
    else some out

/-- Go `path.Clean` as the source has it, with the `lazybuf`; `none` is an index out of
range. -/
def CleanLazy (path : Str) : Option Str :=
  if path = [] then some ['.']
  else
    let rooted : Bool := decide (path[0]? = some '/')
    let out : lazybuf := { s := path, buf := none, w := 0 }
    let start : Option (lazybuf × Nat × Nat) :=
      if rooted then
        match out.append '/' with
        | none => none
        | some out1 => some (out1, 1, 1)
      else some (out, 0, 0)
    match start with
    | none => none
    | some (out1, r, dotdot) =>
      match lazyLoop path rooted path.length r out1 dotdot with
      | none => none
      | some out2 => if out2.w = 0 then some ['.'] else out2.string

/-! ## `bytes.TrimRight` (Go standard library, package `bytes`) -/

/-- The loop of `bytes.trimRightByte`:
`for len(s) > 0 && s[len(s)-1] == c { s = s[:len(s)-1] }`, at most `len(s)` times. -/
def trimRightLoop (c : UInt8) : Nat → List UInt8 → List UInt8
  | 0, s => s
  | fuel + 1, s =>
    if 0 < s.length ∧ s[s.length - 1]? = some c then
      trimRightLoop c fuel (s.take (s.length - 1))
    else s

/-- Go `bytes.trimRightByte`. -/
def trimRightByte (s : List UInt8) (c : UInt8) : List UInt8 :=
  trimRightLoop c s.length s

/-- Go `bytes.TrimRight(s, cutset)` at a cutset of one ASCII byte `c`, the only way
`main.go` calls it: `if len(s) == 0 { return s }`, so a nil slice stays nil and an empty
one stays empty, and otherwise `trimRightByte(s, c)`, a slice of `s` and never nil. -/
def TrimRight (s : GoBytes) (c : UInt8) : GoBytes :=
  if s.toList.length = 0 then s else some (trimRightByte s.toList c)

/-- The byte of the cutset `"\n"`. -/
def newline : UInt8 := 10

/-! ## `storage.go`: trees -/

/-- Tree is a hierarchical representation of a path at which a node is expected to
be found: `type Tree struct { Name string; Child *Tree }`. -/
inductive Tree where
  | mk (Name : Str) (Child : Option Tree)

/-- Field `Name`. -/
def Tree.Name : Tree → Str
  | ⟨name, _⟩ => name

/-- Field `Child`. -/
def Tree.Child : Tree → Option Tree
  | ⟨_, child⟩ => child

/-- The method `(n *Tree) MakePath()` on a non-nil receiver. -/
def Tree.MakePath : Tree → Str
  | ⟨name, none⟩ => name
  | ⟨name, some child⟩ => Join [name, child.MakePath]

/-- The function `MakeTree(nodes ...string) *Tree`. -/
def MakeTree : List Str → Option Tree
  | [] => some ⟨"unknown".toList, none⟩
  | n :: rest => some ⟨n, if 1 < (n :: rest).length then MakeTree rest else none⟩

/-! ## `main.go`: values -/

/-- The constant `Archive`. -/
def Archive : Str := "archive".toList

/-- The function `timestamp()`: the clock reading `time.Now().UnixNano()` printed in
decimal.  The clock reading is a parameter. -/
def timestamp (unixNano : Int) : Str := (toString unixNano).toList

/-- The record `type Value struct { storage []byte; key string }`. -/
structure Value where
  storage : GoBytes
  key : Str

/-- The function `MakeValue(key, value)`. -/
def MakeValue (key : Str) (value : GoBytes) : Value := { key := key, storage := value }

/-- The method `Value.SaveId`: it does nothing. -/
def Value.SaveId (w : Value) (_ : Str) : Value := w

/-- The method `Value.IsCompressed`. -/
def Value.IsCompressed (_ : Value) : Bool := false

/-- The method `Value.Key`. -/
def Value.Key (w : Value) : Str := w.key

/-- The method `Value.MakePath(t *Tree)`: `path.Join(t.MakePath(), w.key)`.  On a nil
tree `t.MakePath()` dereferences nil; that panic is `none`. -/
def Value.MakePath (w : Value) (t : Option Tree) : Option Str :=
  match t with
  | none => none
  | some n => some (Join [n.MakePath, w.key])

/-- The method `Value.Unmarshal(b)`: the updated value and the returned error, which
is always nil. -/
def Value.Unmarshal (w : Value) (b : GoBytes) : Value × Option Unit :=
  ({ w with storage := b }, none)

/-- The method `Value.Marshal()`: the content and a nil error. -/
def Value.Marshal (w : Value) : GoBytes × Option Unit := (w.storage, none)

/-! ## `storage/storage_test.go`: the record type of the tests -/

/-- The record `type File struct { content []byte; name string }` of the tests. -/
structure File where
  content : GoBytes
  name : Str

/-- The function `MakeFile(name, content)` of the tests: nil content becomes empty. -/
def MakeFile (name : Str) (content : GoBytes) : File :=
  let content := if content = none then some [] else content
  { name := name, content := content }

/-- The method `File.Write(b)` of the tests: nil bytes become empty. -/
def File.Write (w : File) (b : GoBytes) : File × Option Unit :=
  let b := if b = none then some [] else b
  ({ w with content := b }, none)

/-- The method `File.Read()` of the tests. -/
def File.Read (w : File) : GoBytes × Option Unit := (w.content, none)

/-! ## The store -/

/-- What a store call that is handed the record returns: the error (nil when the call
succeeded), the bytes of its last call of the record's `Unmarshal` (`none` when it did not
call `Unmarshal`), and the store state after the call. -/
structure CallResult (σ ε : Type) where
  err : Option ε
  unmarshal : Option GoBytes
  store : σ

/-- What `GetVersions` returns: the list of tags, the error, the bytes of its last call of
the record's `Unmarshal`, the store state. -/
structure ListResult (σ ε : Type) where
  versions : List Str
  err : Option ε
  unmarshal : Option GoBytes
  store : σ

/-- What `DeleteKeys` returns: the error and the store state. -/
structure DeleteResult (σ ε : Type) where
  err : Option ε
  store : σ

/-- The store `c storage.Store` handed to the commands of `main.go`.  `SaveTag` is declared
nowhere in the sources; its signature `SaveTag(ReaderWriter, *Tree, string) error` is read
off the calls in `setKey` and `rollback`.  Every method that is handed the record gets it as
a `ReaderWriter`, a pointer to the `Value`: it may read it and it may call `Unmarshal` on
it, which alone changes a `Value` (`SaveId` does nothing), and this holds of a save as of a
read.  Every method may change the state of the store, a read too. -/
structure Store (σ ε : Type) where
  Get : σ → Value → Option Tree → CallResult σ ε
  GetVersion : σ → Value → Option Tree → Str → CallResult σ ε
  GetVersions : σ → Value → Option Tree → ListResult σ ε
  SaveTag : σ → Value → Option Tree → Str → CallResult σ ε
  DeleteKeys : σ → Str → DeleteResult σ ε

/-- A call on the store, with its arguments as they were when the call was made. -/
inductive Call where
  | Get (w : Value) (tree : Option Tree)
  | GetVersion (w : Value) (tree : Option Tree) (version : Str)
  | GetVersions (w : Value) (tree : Option Tree)
  | SaveTag (w : Value) (tree : Option Tree) (tag : Str)
  | DeleteKeys (key : Str)

/-- The record a call was handed. -/
def Call.record : Call → Option Value
  | .Get w _ => some w
  | .GetVersion w _ _ => some w
  | .GetVersions w _ => some w
  | .SaveTag w _ _ => some w
  | .DeleteKeys _ => none

/-- The content of the record a call was handed. -/
def Call.content (call : Call) : Option GoBytes :=
  call.record.map (fun w => w.storage)

/-- The namespace tree a call was handed. -/
def Call.tree : Call → Option Tree
  | .Get _ t => t
  | .GetVersion _ t _ => t
  | .GetVersions _ t => t
  | .SaveTag _ t _ => t
  | .DeleteKeys _ => none

/-- Whether a call is a save. -/
def Call.isSave : Call → Bool
  | .SaveTag _ _ _ => true
  | _ => false

/-- Whether a call is a delete. -/
def Call.isDelete : Call → Bool
  | .DeleteKeys _ => true
  | _ => false

/-- The store `c` with a journal: the state is the state of `c` and the calls made so far;
every method makes the call on `c` and adds the call, with the arguments it was handed, to
the journal.  The commands know nothing of the journal: it is written by the store. -/
def Store.logged {σ ε : Type} (c : Store σ ε) : Store (σ × List Call) ε where
  Get s w tree :=
    let r := c.Get s.1 w tree
    { err := r.err, unmarshal := r.unmarshal, store := (r.store, s.2 ++ [Call.Get w tree]) }
  GetVersion s w tree version :=
    let r := c.GetVersion s.1 w tree version
    { err := r.err, unmarshal := r.unmarshal,
      store := (r.store, s.2 ++ [Call.GetVersion w tree version]) }
  GetVersions s w tree :=
    let r := c.GetVersions s.1 w tree
    { versions := r.versions, err := r.err, unmarshal := r.unmarshal,
      store := (r.store, s.2 ++ [Call.GetVersions w tree]) }
  SaveTag s w tree tag :=
    let r := c.SaveTag s.1 w tree tag
    { err := r.err, unmarshal := r.unmarshal,
      store := (r.store, s.2 ++ [Call.SaveTag w tree tag]) }
  DeleteKeys s key :=
    let r := c.DeleteKeys s.1 key
    { err := r.err, store := (r.store, s.2 ++ [Call.DeleteKeys key]) }

/-- The record after a store call: `Unmarshal` applied if the store called it. -/
def Value.afterLoad (w : Value) : Option GoBytes → Value
  | none => w
  | some b => (w.Unmarshal b).1

/-- One run of a command: its result (`Except.error err` is `panic(err)`) and the store
state it leaves. -/
structure Run (σ ε α : Type) where
  result : Except ε α
  store : σ

/-- The calls the store received in a run on a store with a journal, in order. -/
def Run.calls {σ ε α : Type} (r : Run (σ × List Call) ε α) : List Call := r.store.2

/-- The state of the store proper after a run on a store with a journal. -/
def Run.inner {σ ε α : Type} (r : Run (σ × List Call) ε α) : σ := r.store.1

/-! ## `main.go`: the commands -/

/-- The function `getKey(c, key)`. -/
def getKey {σ ε : Type} (c : Store σ ε) (s : σ) (key : Str) : Run σ ε GoBytes :=
  let tree := MakeTree [Archive]
  let w := MakeValue key none
  let r := c.Get s w tree
  match r.err with
  | some err => { result := .error err, store := r.store }
  | none => { result := .ok (w.afterLoad r.unmarshal).storage, store := r.store }

/-- The function `setKey(c, key, tag, b)`.  Both saves are handed the one pointer `w`: the
second is handed the record as the first left it. -/
def setKey {σ ε : Type} (c : Store σ ε) (s : σ) (key tag : Str) (b : GoBytes) :
    Run σ ε Unit :=
  -- NOTE: Trim the extra newline character
  let b := TrimRight b newline
  let w := MakeValue key b
  let r1 := c.SaveTag s w (MakeTree [Archive]) tag
  match r1.err with
  | some err => { result := .error err, store := r1.store }
  | none =>
    let w1 := w.afterLoad r1.unmarshal
    let r2 := c.SaveTag r1.store w1 none tag
    match r2.err with
    | some err => { result := .error err, store := r2.store }
    | none => { result := .ok (), store := r2.store }

/-- The function `rollback(c, key, tag)`; `unixNano` is the clock reading
`timestamp()` takes. -/
def rollback {σ ε : Type} (c : Store σ ε) (s : σ) (key tag : Str) (unixNano : Int) :
    Run σ ε Unit :=
  let tree := MakeTree [Archive]
  let w := MakeValue key none
  let r1 := c.GetVersion s w tree tag
  match r1.err with
  | some err => { result := .error err, store := r1.store }
  | none =>
    let w1 := w.afterLoad r1.unmarshal
    let r2 := c.SaveTag r1.store w1 tree (timestamp unixNano)
    match r2.err with
    | some err => { result := .error err, store := r2.store }
    | none => { result := .ok (), store := r2.store }

/-- The function `listVersions(c, key)`. -/
def listVersions {σ ε : Type} (c : Store σ ε) (s : σ) (key : Str) : Run σ ε (List Str) :=
  let tree := MakeTree [Archive]
  let w := MakeValue key none
  let r := c.GetVersions s w tree
  match r.err with
  | some err => { result := .error err, store := r.store }
  | none => { result := .ok r.versions, store := r.store }

/-! ## The specification of `rollback` -/

/-- The step `GetVersion(record, tree, tag)` of a command: the call on the store, giving the
filled record, or the error. -/
def stepGetVersion {σ ε : Type} (c : Store σ ε) (w : Value) (tree : Option Tree) (tag : Str)
    (s : σ) : Run σ ε Value :=
  let r := c.GetVersion s w tree tag
  match r.err with
  | some err => { result := .error err, store := r.store }
  | none => { result := .ok (w.afterLoad r.unmarshal), store := r.store }

/-- The step `Save(record, tree, tag)` of a command: one save call on the store. -/
def stepSaveTag {σ ε : Type} (c : Store σ ε) (w : Value) (tree : Option Tree) (tag : Str)
    (s : σ) : Run σ ε Unit :=
  let r := c.SaveTag s w tree tag
  match r.err with
  | some err => { result := .error err, store := r.store }
  | none => { result := .ok (), store := r.store }

/-- Sequencing of steps: `r` followed by `f`, which is not run when `r` failed. -/
def Run.andThen {σ ε α β : Type} (r : Run σ ε α) (f : α → σ → Run σ ε β) : Run σ ε β :=
  match r.result with
  | .error err => { result := .error err, store := r.store }
  | .ok a => f a r.store

/-- Rollback as the specification words it: `GetVersion(record, namespaceTree, tag)` followed
by `Save(record, namespaceTree, newTimestampTag)`, on the archive copy only. -/
def rollbackSpec {σ ε : Type} (c : Store σ ε) (s : σ) (key tag : Str) (unixNano : Int) :
    Run σ ε Unit :=
  (stepGetVersion c (MakeValue key none) (MakeTree [Archive]) tag s).andThen
    (fun w s1 => stepSaveTag c w (MakeTree [Archive]) (timestamp unixNano) s1)

/-! ## Stores to run the commands on -/

/-- The errors of the stores below. -/
inductive StoreError where
  | NotFound
  | Unavailable
deriving DecidableEq

/-- The state of the in-memory store: the entries, newest first, each the address of a
record, its tag and the content. -/
abbrev MemState := List ((Str × Str) × List UInt8)

/-- The address of a record in the in-memory store: under a tree the record's `MakePath`,
without a tree its key. -/
def memPath (w : Value) (tree : Option Tree) : Str :=
  match w.MakePath tree with
  | some p => p
  | none => w.Key

/-- The reserved tag `latest`. -/
def Latest : Str := "latest".toList

/-- Modelled from the spec: the store implementation, which is not among the sources.  An
in-memory store with the layout of the specification: a save writes the content under the
tag and under `latest` and leaves the record as it is; `Get` reads `latest` and gives empty
content for an absent key; `GetVersion` reads a tag and fails with `NotFound` when it was
never written; `GetVersions` lists the tags of a record; `DeleteKeys` removes the entries
below a prefix.  A read leaves the state as it is. -/
def memStore : Store MemState StoreError where
  Get s w tree :=
    match s.lookup (memPath w tree, Latest) with
    | some content => { err := none, unmarshal := some (some content), store := s }
    | none => { err := none, unmarshal := some (some []), store := s }
  GetVersion s w tree version :=
    match s.lookup (memPath w tree, version) with
    | some content => { err := none, unmarshal := some (some content), store := s }
    | none => { err := some .NotFound, unmarshal := none, store := s }
  GetVersions s w tree :=
    { versions := ((s.filter (fun e => e.1.1 = memPath w tree)).map (fun e => e.1.2)).eraseDups,
      err := none, unmarshal := none, store := s }
  SaveTag s w tree tag :=
    { err := none, unmarshal := none,
      store := ((memPath w tree, tag), w.Marshal.1.toList) ::
        ((memPath w tree, Latest), w.Marshal.1.toList) :: s }
  DeleteKeys s key :=
    { err := none, store := s.filter (fun e => decide (¬ (key <+: e.1.1))) }

/-- A store that cannot be reached: every call fails with `Unavailable`. -/
def brokenStore : Store Unit StoreError where
  Get _ _ _ := { err := some .Unavailable, unmarshal := none, store := () }
  GetVersion _ _ _ _ := { err := some .Unavailable, unmarshal := none, store := () }
  GetVersions _ _ _ :=
    { versions := [], err := some .Unavailable, unmarshal := none, store := () }
  SaveTag _ _ _ _ := { err := some .Unavailable, unmarshal := none, store := () }
  DeleteKeys _ _ := { err := some .Unavailable, store := () }

/-- A store on which every call succeeds and that never calls `Unmarshal` on the record. -/
def silentStore : Store Unit StoreError where
  Get _ _ _ := { err := none, unmarshal := none, store := () }
  GetVersion _ _ _ _ := { err := none, unmarshal := none, store := () }
  GetVersions _ _ _ := { versions := [], err := none, unmarshal := none, store := () }
  SaveTag _ _ _ _ := { err := none, unmarshal := none, store := () }
  DeleteKeys _ _ := { err := none, store := () }

/-- A store whose save reads the entry back into the record it was handed: it calls
`Unmarshal` on the record with the bytes it holds for the entry, here `x` and a newline. -/
def rewritingStore : Store Unit StoreError where
  Get _ _ _ := { err := none, unmarshal := some (some [120, 10]), store := () }
  GetVersion _ _ _ _ := { err := none, unmarshal := some (some [120, 10]), store := () }
  GetVersions _ _ _ := { versions := [], err := none, unmarshal := none, store := () }
  SaveTag _ _ _ _ := { err := none, unmarshal := some (some [120, 10]), store := () }
  DeleteKeys _ _ := { err := none, store := () }

/-- A store that holds no entry and counts the requests it has served: the state is the
count, which every call raises, a read that fails with `NotFound` too. -/
def countingStore : Store Nat StoreError where
  Get s _ _ := { err := none, unmarshal := some (some []), store := s + 1 }
  GetVersion s _ _ _ := { err := some .NotFound, unmarshal := none, store := s + 1 }
  GetVersions s _ _ := { versions := [], err := none, unmarshal := none, store := s + 1 }
  SaveTag s _ _ _ := { err := none, unmarshal := none, store := s + 1 }
  DeleteKeys s _ := { err := none, store := s + 1 }

/-! ## Path components: what `Clean` computes

A path is split at its slashes into components; `Clean` runs over the components with a
stack: an empty component and `.` are skipped, `..` removes the last name of the stack, or is
kept in front when the stack holds no name and the path is not rooted, and every other
component is a name, put on the stack. -/

/-- The test `path[r] != '/'`. -/
def notSlash (c : Char) : Bool := decide (c ≠ '/')

/-- The components of a path: the pieces between its slashes, which may be empty. -/
def components : List Char → List Str
  | [] => [[]]
  | c :: rest =>
    if c = '/' then [] :: components rest
    else ((c :: (components rest).headD []) :: (components rest).tail)

/-- The components joined again, one slash between two of them. -/
def joinSlash : List Str → Str
  | [] => []
  | [a] => a
  | a :: b :: rest => a ++ '/' :: joinSlash (b :: rest)

/-- The component `..`. -/
def dotdotElem : Str := ['.', '.']

/-- A component that names something: not empty, not `.`, not `..`, without a slash. -/
def Plain (comp : Str) : Prop :=
  comp ≠ [] ∧ comp ≠ ['.'] ∧ comp ≠ ['.', '.'] ∧ '/' ∉ comp

/-- The components `Clean` has kept so far: `dd` leading `..`, then the names `ps`. -/
structure Stack where
  dd : Nat
  ps : List Str

/-- One component met by `Clean`. -/
def stepComp (rooted : Bool) (st : Stack) (comp : Str) : Stack :=
  if comp = [] ∨ comp = ['.'] then st
  else if comp = ['.', '.'] then
    if st.ps ≠ [] then { st with ps := st.ps.dropLast }
    else if rooted then st else { st with dd := st.dd + 1 }
  else { st with ps := st.ps ++ [comp] }

/-- The stack after the components of `p`, from the stack `st`. -/
def sem (rooted : Bool) (st : Stack) (p : Str) : Stack :=
  (components p).foldl (stepComp rooted) st

/-- The components a stack stands for. -/
def Stack.comps (st : Stack) : List Str := List.replicate st.dd dotdotElem ++ st.ps

/-- The buffer of `Clean` at a stack. -/
def outOf (rooted : Bool) (st : Stack) : List Char :=
  if rooted then '/' :: joinSlash st.ps else joinSlash st.comps

/-- The index `dotdot` of `Clean` at a stack. -/
def dotdotOf (rooted : Bool) (st : Stack) : Nat :=
  if rooted then 1 else (joinSlash (List.replicate st.dd dotdotElem)).length

/-- Whether a path begins with a slash. -/
def isRooted (p : Str) : Bool := decide (p.head? = some '/')

/-- The names of a stack are names. -/
def Stack.Inv (st : Stack) : Prop := ∀ p ∈ st.ps, Plain p

/-- The empty stack. -/
def Stack.init : Stack := ⟨0, []⟩

/-- The path of the tree `MakeTree` builds from `segs`. -/
def treePath (segs : List Str) : Str :=
  match MakeTree segs with
  | some t => t.MakePath
  | none => []

/-- The bytes a `lazybuf` holds: the first `w` of `buf`, or of `s` while `buf` is nil. -/
def lazybuf.content (b : lazybuf) : List Char :=
  match b.buf with
  | none => b.s.take b.w
  | some l => l.take b.w

/-- A `lazybuf` for `path`: `s` is the path, `w` is within it, and `buf`, once made, has the
length of the path. -/
def lazybuf.Wf (path : List Char) (b : lazybuf) : Prop :=
  b.s = path ∧ b.w ≤ path.length ∧ ∀ l, b.buf = some l → l.length = path.length

/-- The room the buffer has at the start of a path element: the output is shorter than the
input read, or it is still empty, or it is the root slash alone. -/
def lazybuf.Slack (path : List Char) (rooted : Bool) (r : Nat) (b : lazybuf) : Prop :=
  ∀ ch, path[r]? = some ch → ch ≠ '/' →
    (b.w < r ∨ (rooted = false ∧ b.w = 0) ∨ (rooted = true ∧ b.w = 1))

/-- Cases of the test table of `Clean` in Go's package `path`: a path and its cleaned form. -/
def cleanTests : List (String × String) :=
  [("", "."), ("abc", "abc"), ("abc/def", "abc/def"), ("a/b/c", "a/b/c"), (".", "."),
   ("..", ".."), ("../..", "../.."), ("../../abc", "../../abc"), ("/abc", "/abc"), ("/", "/"),
   ("abc/", "abc"), ("abc/def/", "abc/def"), ("a/b/c/", "a/b/c"), ("./", "."), ("../", ".."),
   ("../../", "../.."), ("/abc/", "/abc"), ("abc//def//ghi", "abc/def/ghi"), ("//abc", "/abc"),
   ("///abc", "/abc"), ("//abc//", "/abc"), ("abc//", "abc"), ("abc/./def", "abc/def"),
   ("/./abc/def", "/abc/def"), ("abc/.", "abc"), ("abc/def/ghi/../jkl", "abc/def/jkl"),
   ("abc/def/../ghi/../jkl", "abc/jkl"), ("abc/def/..", "abc"), ("abc/def/../..", "."),
   ("/abc/def/../..", "/"), ("abc/def/../../..", ".."), ("/abc/def/../../..", "/"),
   ("abc/def/../../../ghi/jkl/../../../mno", "../../mno"), ("abc/./../def", "def"),
   ("abc//./../def", "def"), ("abc/../../././../def", "../../def")]

/-- Cases of the test table of `Join` in Go's package `path`: the elements and their join. -/
def joinTests : List (List String × String) :=
  [([], ""), ([""], ""), (["a"], "a"), (["a", "b"], "a/b"), (["a", ""], "a"), (["", "b"], "b"),
   (["/", "a"], "/a"), (["/", ""], "/"), (["a/", "b"], "a/b"), (["a/", ""], "a"), (["", ""], "")]

/-! ## The model of `path` on the cases of Go's tests -/

/-- The model of `Clean` gives the cleaned form on each case of the table. -/
theorem Clean_test_table : ∀ t ∈ cleanTests, Clean t.1.toList = t.2.toList := by decide

/-- The model of `Join` gives the join on each case of the table. -/
theorem Join_test_table : ∀ t ∈ joinTests, Join (t.1.map String.toList) = t.2.toList := by
  decide

/-! ## Lemmas on path components -/

theorem components_ne_nil (p : Str) : components p ≠ [] := by
  cases p with
  | nil => simp [components]
  | cons c t => simp only [components]; split <;> simp

theorem components_cons_slash (t : Str) : components ('/' :: t) = [] :: components t := by
  simp [components]

theorem components_append_slash (x y : Str) :
    components (x ++ '/' :: y) = components x ++ components y := by
  induction x with
  | nil => simp [components]
  | cons c t ih =>
    have h := components_ne_nil t
    by_cases hc : c = '/'
    · simp [components, hc, ih]
    · cases ht : components t with
      | nil => exact absurd ht h
      | cons a l => simp [components, hc, ih, ht]

theorem components_slashfree (x : Str) (h : '/' ∉ x) : components x = [x] := by
  induction x with
  | nil => rfl
  | cons c t ih =>
    simp only [List.mem_cons, not_or] at h
    have hc : c ≠ '/' := fun e => h.1 e.symm
    simp [components, hc, ih h.2]

theorem components_eq_takeWhile (p : Str) :
    components p = p.takeWhile notSlash :: (components (p.dropWhile notSlash)).tail := by
  induction p with
  | nil => rfl
  | cons c t ih =>
    by_cases hc : c = '/'
    · subst hc
      simp [components, notSlash]
    · have h1 : notSlash c = true := by simp [notSlash, hc]
      simp only [components, hc, if_false, List.takeWhile_cons, h1, if_true, List.dropWhile_cons]
      rw [ih]
      simp

theorem components_dropWhile_head (p : Str) :
    components (p.dropWhile notSlash) = [] :: (components (p.dropWhile notSlash)).tail := by
  induction p with
  | nil => rfl
  | cons c t ih =>
    by_cases hc : c = '/'
    · subst hc
      simp [components, notSlash]
    · have h1 : notSlash c = true := by simp [notSlash, hc]
      simp only [List.dropWhile_cons, h1, if_true]
      exact ih

theorem stepComp_nil (r : Bool) (st : Stack) : stepComp r st [] = st := by
  simp [stepComp]

theorem sem_nil (r : Bool) (st : Stack) : sem r st [] = st := by
  simp [sem, components, stepComp]

theorem sem_cons_slash (r : Bool) (st : Stack) (t : Str) : sem r st ('/' :: t) = sem r st t := by
  simp [sem, components, stepComp]

theorem sem_takeWhile (r : Bool) (st : Stack) (p : Str) :
    sem r st p = sem r (stepComp r st (p.takeWhile notSlash)) (p.dropWhile notSlash) := by
  unfold sem
  rw [components_eq_takeWhile p]
  conv => rhs; rw [components_dropWhile_head p]
  simp [stepComp_nil]

theorem sem_append_slash (r : Bool) (st : Stack) (x y : Str) :
    sem r st (x ++ '/' :: y) = sem r (sem r st x) y := by
  simp [sem, components_append_slash]

/-! ## The buffer of `Clean` -/

theorem joinSlash_cons (a : Str) (cs : List Str) (h : cs ≠ []) :
    joinSlash (a :: cs) = a ++ '/' :: joinSlash cs := by
  cases cs with
  | nil => exact absurd rfl h
  | cons b l => rfl

theorem joinSlash_concat (cs : List Str) (p : Str) :
    joinSlash (cs ++ [p]) = if cs = [] then p else joinSlash cs ++ '/' :: p := by
  induction cs with
  | nil => rfl
  | cons a l ih =>
    rw [List.cons_append, joinSlash_cons a (l ++ [p]) (by simp), ih]
    by_cases hl : l = []
    · subst hl; simp [joinSlash]
    · simp [hl, joinSlash_cons a l hl]

theorem joinSlash_eq_nil (cs : List Str) (h : ∀ c ∈ cs, c ≠ []) :
    joinSlash cs = [] ↔ cs = [] := by
  cases cs with
  | nil => simp [joinSlash]
  | cons a l =>
    cases l with
    | nil => simpa [joinSlash] using h
    | cons b l' => simp [joinSlash]

theorem joinSlash_length_le (a b : List Str) :
    (joinSlash a).length ≤ (joinSlash (a ++ b)).length := by
  induction b using List.reverseRecOn with
  | nil => simp
  | append_singleton l p ih =>
    rw [← List.append_assoc, joinSlash_concat]
    split
    · rename_i h
      have ha : a = [] := by
        cases a with
        | nil => rfl
        | cons x y => simp at h
      subst ha
      simp [joinSlash]
    · simp only [List.length_append, List.length_cons]
      omega

theorem components_joinSlash (cs : List Str) (hne : cs ≠ []) (h : ∀ c ∈ cs, '/' ∉ c) :
    components (joinSlash cs) = cs := by
  induction cs with
  | nil => exact absurd rfl hne
  | cons a l ih =>
    cases l with
    | nil => simpa [joinSlash] using components_slashfree a (h a (by simp))
    | cons b l' =>
      rw [joinSlash_cons a (b :: l') (by simp), components_append_slash,
        components_slashfree a (h a (by simp)), ih (by simp)]
      · rfl
      · intro c hc
        exact h c (List.mem_cons_of_mem _ hc)

theorem backtrack_stop_at_slash (x p : List Char) (dotdot : Nat) (hd : dotdot ≤ x.length)
    (hp : '/' ∉ p) (j : Nat) :
    backtrack (x ++ '/' :: p) dotdot (x.length + j) = x.length := by
  induction j with
  | zero =>
    cases hx : x.length with
    | zero => simp [backtrack]
    | succ n =>
      have : (x ++ '/' :: p)[n + 1]? = some '/' := by
        rw [← hx, List.getElem?_append_right (le_refl _)]
        simp
      simp [backtrack, this]
  | succ j ih =>
    have hidx : (x ++ '/' :: p)[x.length + j + 1]? ≠ some '/' := by
      rw [List.getElem?_append_right (by omega)]
      have : x.length + j + 1 - x.length = j + 1 := by omega
      rw [this, List.getElem?_cons_succ]
      intro hcon
      exact hp (List.mem_iff_getElem?.mpr ⟨_, hcon⟩)
    have hlt : dotdot < x.length + j + 1 := by omega
    show backtrack (x ++ '/' :: p) dotdot (x.length + j + 1) = x.length
    rw [backtrack, if_pos ⟨hlt, hidx⟩]
    exact ih

theorem backtrack_stop_at_dotdot (x p : List Char) (hp : '/' ∉ p) (j : Nat) :
    backtrack (x ++ p) x.length (x.length + j) = x.length := by
  induction j with
  | zero =>
    cases hx : x.length with
    | zero => simp [backtrack]
    | succ n => simp [backtrack]
  | succ j ih =>
    have hidx : (x ++ p)[x.length + j + 1]? ≠ some '/' := by
      rw [List.getElem?_append_right (by omega)]
      intro hcon
      exact hp (List.mem_iff_getElem?.mpr ⟨_, hcon⟩)
    have hlt : x.length < x.length + j + 1 := by omega
    show backtrack (x ++ p) x.length (x.length + j + 1) = x.length
    rw [backtrack, if_pos ⟨hlt, hidx⟩]
    exact ih

theorem copyElem_eq (p out : List Char) :
    copyElem p out = (p.dropWhile notSlash, out ++ p.takeWhile notSlash) := by
  induction p generalizing out with
  | nil => simp [copyElem]
  | cons c t ih =>
    by_cases hc : c = '/'
    · subst hc; simp [copyElem, notSlash]
    · simp [copyElem, hc, notSlash, ih]

theorem replicate_dotdot_ne_nil (n : Nat) : ∀ c ∈ List.replicate n dotdotElem, c ≠ [] := by
  intro c hc
  rw [List.eq_of_mem_replicate hc]
  simp [dotdotElem]

theorem comps_ne_nil (dd : Nat) (ps : List Str) (h : ∀ p ∈ ps, Plain p) :
    ∀ c ∈ List.replicate dd dotdotElem ++ ps, c ≠ [] := by
  intro c hc
  rcases List.mem_append.mp hc with h1 | h1
  · exact replicate_dotdot_ne_nil dd c h1
  · exact (h c h1).1

theorem outOf_gt_dotdot (r : Bool) (dd : Nat) (ps : List Str) (p : Str) (hp : p ≠ []) :
    dotdotOf r ⟨dd, ps ++ [p]⟩ < (outOf r ⟨dd, ps ++ [p]⟩).length := by
  cases r with
  | true =>
    simp only [dotdotOf, outOf, if_true, List.length_cons, joinSlash_concat]
    have : 0 < p.length := List.length_pos.mpr hp
    split <;> (simp; try omega)
  | false =>
    simp only [dotdotOf, outOf, Stack.comps, Bool.false_eq_true, if_false]
    rw [← List.append_assoc, joinSlash_concat]
    have hlen : 0 < p.length := List.length_pos.mpr hp
    have hle := joinSlash_length_le (List.replicate dd dotdotElem) ps
    split
    · rename_i h
      have h1 : List.replicate dd dotdotElem = [] := (List.append_eq_nil.mp h).1
      rw [h1]
      simpa [joinSlash] using hlen
    · simp only [List.length_append, List.length_cons]
      omega

theorem outOf_le_dotdot (r : Bool) (dd : Nat) :
    ¬ dotdotOf r ⟨dd, []⟩ < (outOf r ⟨dd, []⟩).length := by
  cases r <;> simp [dotdotOf, outOf, Stack.comps, joinSlash]

theorem outOf_pop (r : Bool) (dd : Nat) (ps : List Str) (p : Str) (hp : '/' ∉ p)
    (hp0 : p ≠ []) :
    (outOf r ⟨dd, ps ++ [p]⟩).take
      (backtrack (outOf r ⟨dd, ps ++ [p]⟩) (dotdotOf r ⟨dd, ps ++ [p]⟩)
        ((outOf r ⟨dd, ps ++ [p]⟩).length - 1)) = outOf r ⟨dd, ps⟩ := by
  cases r with
  | true =>
    simp only [dotdotOf, outOf, if_true, joinSlash_concat]
    by_cases h : ps = []
    · subst h
      simp only [if_true, joinSlash, List.length_cons, Nat.add_sub_cancel]
      have := backtrack_stop_at_dotdot ['/'] p hp (p.length - 1)
      cases hl : p.length with
      | zero => exact absurd (List.length_eq_zero.mp hl) hp0
      | succ n =>
        rw [hl] at this
        simp only [List.length_singleton, Nat.add_sub_cancel, List.singleton_append] at this
        rw [Nat.add_comm] at this
        rw [this]
        simp
    · simp only [h, if_false]
      have := backtrack_stop_at_slash ('/' :: joinSlash ps) p 1 (by simp) hp p.length
      simp only [List.cons_append] at this
      simp only [List.length_cons, List.length_append, Nat.add_sub_cancel]
      simp only [List.length_cons] at this
      have e : (joinSlash ps).length + (p.length + 1) = (joinSlash ps).length + 1 + p.length := by
        omega
      rw [e, this]
      simp
  | false =>
    simp only [dotdotOf, outOf, Stack.comps, Bool.false_eq_true, if_false]
    rw [← List.append_assoc, joinSlash_concat]
    by_cases h : List.replicate dd dotdotElem ++ ps = []
    · have h1 := (List.append_eq_nil.mp h).1
      have h2 := (List.append_eq_nil.mp h).2
      subst h2
      rw [List.append_nil, h1]
      simp only [if_true, joinSlash, List.length_nil]
      have := backtrack_stop_at_dotdot [] p hp (p.length - 1)
      simp only [List.length_nil, Nat.zero_add, List.nil_append] at this
      rw [this]
      simp
    · simp only [h, if_false]
      have hle := joinSlash_length_le (List.replicate dd dotdotElem) ps
      have := backtrack_stop_at_slash (joinSlash (List.replicate dd dotdotElem ++ ps)) p
        (joinSlash (List.replicate dd dotdotElem)).length hle hp p.length
      simp only [List.length_append, List.length_cons, Nat.add_sub_cancel]
      have e : (joinSlash (List.replicate dd dotdotElem ++ ps)).length + (p.length + 1) - 1
          = (joinSlash (List.replicate dd dotdotElem ++ ps)).length + p.length := by omega
      rw [e, this]
      simp

theorem outOf_dotdot (dd : Nat) :
    (if 0 < (outOf false ⟨dd, []⟩).length then outOf false ⟨dd, []⟩ ++ ['/']
      else outOf false ⟨dd, []⟩) ++ ['.', '.'] = outOf false ⟨dd + 1, []⟩ := by
  simp only [outOf, Stack.comps, Bool.false_eq_true, if_false, List.append_nil]
  rw [List.replicate_succ', joinSlash_concat]
  cases dd with
  | zero => simp [joinSlash, dotdotElem]
  | succ n =>
    have h : List.replicate (n + 1) dotdotElem ≠ [] := by simp [List.replicate_succ]
    have hne : joinSlash (List.replicate (n + 1) dotdotElem) ≠ [] := by
      intro hcon
      exact h ((joinSlash_eq_nil _ (replicate_dotdot_ne_nil (n + 1))).mp hcon)
    have hpos : 0 < (joinSlash (List.replicate (n + 1) dotdotElem)).length :=
      List.length_pos.mpr hne
    rw [if_pos hpos, if_neg h]
    simp [dotdotElem]

theorem dotdotOf_succ (dd : Nat) :
    (outOf false ⟨dd + 1, []⟩).length = dotdotOf false ⟨dd + 1, []⟩ := by
  simp [outOf, dotdotOf, Stack.comps]

theorem outOf_push (r : Bool) (dd : Nat) (ps : List Str) (comp : Str)
    (hps : ∀ q ∈ ps, Plain q) :
    (if (r = true ∧ (outOf r ⟨dd, ps⟩).length ≠ 1) ∨ (r = false ∧ (outOf r ⟨dd, ps⟩).length ≠ 0)
      then outOf r ⟨dd, ps⟩ ++ ['/'] else outOf r ⟨dd, ps⟩) ++ comp
      = outOf r ⟨dd, ps ++ [comp]⟩ := by
  cases r with
  | true =>
    simp only [outOf, if_true, joinSlash_concat, true_and, Bool.true_eq_false, false_and, or_false,
      List.length_cons]
    by_cases h : ps = []
    · subst h; simp [joinSlash]
    · have hne : joinSlash ps ≠ [] := fun hcon =>
        h ((joinSlash_eq_nil _ (fun q hq => (hps q hq).1)).mp hcon)
      have hpos : 0 < (joinSlash ps).length := List.length_pos.mpr hne
      have : (joinSlash ps).length + 1 ≠ 1 := by omega
      simp [h, this]
  | false =>
    simp only [outOf, Stack.comps, Bool.false_eq_true, if_false, false_and, false_or, true_and]
    rw [← List.append_assoc, joinSlash_concat]
    by_cases h : List.replicate dd dotdotElem ++ ps = []
    · simp [h, joinSlash]
    · have hne : joinSlash (List.replicate dd dotdotElem ++ ps) ≠ [] := fun hcon =>
        h ((joinSlash_eq_nil _ (comps_ne_nil dd ps hps)).mp hcon)
      have hpos : (joinSlash (List.replicate dd dotdotElem ++ ps)).length ≠ 0 := by
        intro hcon
        exact hne (List.length_eq_zero.mp hcon)
      simp [h, hpos]

/-! ## The `lazybuf` of the source -/

theorem lazybuf_content_length (path : List Char) (b : lazybuf) (h : b.Wf path) :
    b.content.length = b.w := by
  obtain ⟨hs, hw, hb⟩ := h
  unfold lazybuf.content
  cases hbuf : b.buf with
  | none => simp [hs, hw]
  | some l => simp [hb l hbuf, hw]

theorem take_set_succ (l : List Char) (w : Nat) (c : Char) (h : w < l.length) :
    (l.set w c).take (w + 1) = l.take w ++ [c] := by
  induction l generalizing w with
  | nil => simp at h
  | cons a t ih =>
    cases w with
    | zero => simp
    | succ n =>
      have hn : n < t.length := by simpa using h
      simp [ih n hn]

theorem lazybuf_append_spec (path : List Char) (b : lazybuf) (c : Char) (h : b.Wf path)
    (hw : b.w < path.length) :
    ∃ b1, b.append c = some b1 ∧ b1.Wf path ∧ b1.w = b.w + 1 ∧
      b1.content = b.content ++ [c] := by
  obtain ⟨hs, hwle, hb⟩ := h
  unfold lazybuf.append
  cases hbuf : b.buf with
  | none =>
    simp only
    by_cases hfast : b.w < b.s.length ∧ b.s[b.w]? = some c
    · rw [if_pos hfast]
      refine ⟨_, rfl, ⟨hs, by simp only; omega, by simp [hbuf]⟩, rfl, ?_⟩
      simp only [lazybuf.content, hbuf]
      rw [List.take_succ, hfast.2]
      rfl
    · rw [if_neg hfast, if_pos (by rw [hs]; exact hwle)]
      have hlen : (b.s.take b.w ++ List.replicate (b.s.length - b.w) (Char.ofNat 0)).length
          = path.length := by
        rw [List.length_append, List.length_take, List.length_replicate, hs]
        omega
      rw [if_pos (by rw [hlen]; exact hw)]
      refine ⟨_, rfl, ⟨hs, by simp only; omega, ?_⟩, rfl, ?_⟩
      · intro l hl
        simp only [Option.some.injEq] at hl
        rw [← hl, List.length_set, hlen]
      · simp only [lazybuf.content, hbuf]
        rw [take_set_succ _ _ _ (by rw [hlen]; exact hw)]
        congr 1
        apply List.take_left'
        rw [List.length_take, hs]
        omega
  | some l =>
    have hl := hb l hbuf
    simp only
    rw [if_pos (by rw [hl]; exact hw)]
    refine ⟨_, rfl, ⟨hs, by simp only; omega, ?_⟩, rfl, ?_⟩
    · intro l1 hl1
      simp only [Option.some.injEq] at hl1
      rw [← hl1, List.length_set, hl]
    · simp only [lazybuf.content, hbuf]
      exact take_set_succ _ _ _ (by rw [hl]; exact hw)

theorem lazybuf_index_spec (b : lazybuf) (i : Nat) (hi : i < b.w) :
    b.index i = b.content[i]? := by
  unfold lazybuf.index lazybuf.content
  cases b.buf with
  | none => simp only; rw [List.getElem?_take_of_lt hi]
  | some l => simp only; rw [List.getElem?_take_of_lt hi]

theorem lazybuf_setw (path : List Char) (b : lazybuf) (w1 : Nat) (h : b.Wf path)
    (hw : w1 ≤ b.w) :
    lazybuf.Wf path { b with w := w1 } ∧
      lazybuf.content { b with w := w1 } = b.content.take w1 := by
  obtain ⟨hs, hwle, hb⟩ := h
  refine ⟨⟨hs, by simp only; omega, hb⟩, ?_⟩
  unfold lazybuf.content
  cases b.buf with
  | none => simp only; rw [List.take_take, Nat.min_eq_left hw]
  | some l => simp only; rw [List.take_take, Nat.min_eq_left hw]

theorem backtrack_le (out : List Char) (dotdot : Nat) (w : Nat) : backtrack out dotdot w ≤ w := by
  induction w with
  | zero => simp [backtrack]
  | succ n ih =>
    rw [backtrack]
    split
    · omega
    · exact le_refl _

theorem lazyBacktrack_spec (path : List Char) (b : lazybuf) (dotdot : Nat) (h : b.Wf path)
    (w : Nat) (hw : w < b.w) :
    lazyBacktrack b dotdot w = some (backtrack b.content dotdot w) := by
  induction w with
  | zero => simp [lazyBacktrack, backtrack]
  | succ n ih =>
    rw [lazyBacktrack, backtrack, lazybuf_index_spec b (n + 1) hw]
    have hlen := lazybuf_content_length path b h
    have hex : ∃ ch, b.content[n + 1]? = some ch := by
      refine ⟨b.content[n + 1], ?_⟩
      exact List.getElem?_eq_getElem (by rw [hlen]; exact hw)
    obtain ⟨ch, hch⟩ := hex
    rw [hch]
    by_cases hd : dotdot < n + 1
    · rw [if_pos hd]
      by_cases hc : ch = '/'
      · subst hc
        simp [hd]
      · simp only [ne_eq, hc, not_false_eq_true, if_true]
        rw [if_pos ⟨hd, by simp [hc]⟩]
        exact ih (by omega)
    · rw [if_neg hd, if_neg (fun hcon => hd hcon.1)]

theorem slack_of_end (path : List Char) (rooted : Bool) (r : Nat) (b : lazybuf)
    (h : path.drop r = [] ∨ (path.drop r).head? = some '/') : b.Slack path rooted r := by
  intro ch hch hne
  rw [List.head?_drop] at h
  rcases h with h | h
  · have := List.drop_eq_nil_iff.mp h
    rw [List.getElem?_eq_none this] at hch
    exact absurd hch (by simp)
  · rw [h] at hch
    exact absurd (Option.some.inj hch).symm hne

theorem lazyCopy_spec (path : List Char) (fuel : Nat) : ∀ (r : Nat) (b : lazybuf),
    b.Wf path → b.w ≤ r → path.length - r ≤ fuel →
    ∃ r1 b1, lazyCopy path fuel r b = some (r1, b1) ∧ b1.Wf path ∧ b1.w ≤ r1 ∧
      path.drop r1 = (path.drop r).dropWhile notSlash ∧
      b1.content = b.content ++ (path.drop r).takeWhile notSlash := by
  induction fuel with
  | zero =>
    intro r b hwf hw hfuel
    have hd : path.drop r = [] := List.drop_eq_nil_iff.mpr (by omega)
    exact ⟨r, b, rfl, hwf, hw, by simp [hd], by simp [hd]⟩
  | succ fuel ih =>
    intro r b hwf hw hfuel
    rw [lazyCopy]
    by_cases hr : r < path.length
    · have hdrop : path.drop r = path[r] :: path.drop (r + 1) := List.drop_eq_getElem_cons hr
      rw [List.getElem?_eq_getElem hr]
      simp only
      by_cases hc : path[r] = '/'
      · rw [if_neg (by simp [hc])]
        refine ⟨r, b, rfl, hwf, hw, ?_, ?_⟩
        · rw [hdrop, hc]; simp [notSlash]
        · rw [hdrop, hc]; simp [notSlash]
      · rw [if_pos hc]
        obtain ⟨b1, hb1, hwf1, hw1, hc1⟩ :=
          lazybuf_append_spec path b path[r] hwf (by omega)
        rw [hb1]
        simp only
        obtain ⟨r2, b2, h2, hwf2, hw2, hd2, hc2⟩ := ih (r + 1) b1 hwf1 (by omega) (by omega)
        have hns : notSlash path[r] = true := by simp [notSlash, hc]
        refine ⟨r2, b2, h2, hwf2, hw2, ?_, ?_⟩
        · rw [hd2, hdrop, List.dropWhile_cons, if_pos hns]
        · rw [hc2, hc1, hdrop, List.takeWhile_cons, if_pos hns]
          simp
    · have hd : path.drop r = [] := List.drop_eq_nil_iff.mpr (by omega)
      rw [List.getElem?_eq_none (by omega)]
      exact ⟨r, b, rfl, hwf, hw, by simp [hd], by simp [hd]⟩

theorem dropWhile_notSlash_end (l : List Char) :
    l.dropWhile notSlash = [] ∨ (l.dropWhile notSlash).head? = some '/' := by
  induction l with
  | nil => exact Or.inl rfl
  | cons a t ih =>
    by_cases ha : a = '/'
    · right; simp [ha, notSlash]
    · simpa [List.dropWhile_cons, notSlash, ha] using ih

theorem lazyLoop_spec (path : List Char) (rooted : Bool) (fuel : Nat) :
    ∀ (r : Nat) (b : lazybuf) (dotdot : Nat), b.Wf path → b.w ≤ r → b.Slack path rooted r →
    ∃ b1, lazyLoop path rooted fuel r b dotdot = some b1 ∧ b1.Wf path ∧
      b1.content = cleanLoop rooted fuel (path.drop r) b.content dotdot := by
  induction fuel with
  | zero =>
    intro r b dotdot hwf _ _
    exact ⟨b, rfl, hwf, by simp [cleanLoop]⟩
  | succ fuel ih =>
    intro r b dotdot hwf hw hslack
    have hlen := lazybuf_content_length path b hwf
    by_cases hr : r < path.length
    · have hdrop : path.drop r = path[r] :: path.drop (r + 1) := List.drop_eq_getElem_cons hr
      have hget : path[r]? = some path[r] := List.getElem?_eq_getElem hr
      have hhead : (path.drop (r + 1)).head? = path[r + 1]? := List.head?_drop _ _
      have htail : (path.drop (r + 1)).tail = path.drop (r + 2) := List.tail_drop _ _
      have hhead2 : (path.drop (r + 2)).head? = path[r + 2]? := List.head?_drop _ _
      have hnil1 : path.drop (r + 1) = [] ↔ r + 1 = path.length := by
        rw [List.drop_eq_nil_iff]; omega
      rw [lazyLoop, if_pos hr, hdrop, cleanLoop, hget]
      simp only [Option.some.injEq]
      by_cases h1 : path[r] = '/'
      · rw [if_pos h1, if_pos h1]
        exact ih (r + 1) b dotdot hwf (by omega) (fun _ _ _ => Or.inl (by omega))
      · rw [if_neg h1, if_neg h1]
        by_cases h2 : path[r] = '.' ∧ (path.drop (r + 1) = [] ∨
            (path.drop (r + 1)).head? = some '/')
        · have h2' : path[r] = '.' ∧ (r + 1 = path.length ∨ path[r + 1]? = some '/') := by
            rw [← hnil1, ← hhead]; exact h2
          rw [if_pos h2, if_pos h2']
          exact ih (r + 1) b dotdot hwf (by omega) (slack_of_end path rooted (r + 1) b h2.2)
        · have h2' : ¬ (path[r] = '.' ∧ (r + 1 = path.length ∨ path[r + 1]? = some '/')) := by
            rw [← hnil1, ← hhead]; exact h2
          rw [if_neg h2, if_neg h2']
          by_cases h3 : path[r] = '.' ∧ (path.drop (r + 1)).head? = some '.' ∧
              ((path.drop (r + 1)).tail = [] ∨ (path.drop (r + 1)).tail.head? = some '/')
          · have hr1 : r + 1 < path.length := by
              have := h3.2.1
              rw [hhead] at this
              by_contra hcon
              rw [List.getElem?_eq_none (by omega)] at this
              exact absurd this (by simp)
            have hnil2 : path.drop (r + 2) = [] ↔ r + 2 = path.length := by
              rw [List.drop_eq_nil_iff]; omega
            have h3' : path[r] = '.' ∧ path[r + 1]? = some '.' ∧
                (r + 2 = path.length ∨ path[r + 2]? = some '/') := by
              rw [← hnil2, ← hhead2, ← htail, ← hhead]; exact h3
            rw [if_pos h3, if_pos h3', hlen, htail]
            have hend : path.drop (r + 2) = [] ∨ (path.drop (r + 2)).head? = some '/' := by
              rw [← htail]; exact h3.2.2
            by_cases hd : dotdot < b.w
            · rw [if_pos hd, if_pos hd, lazyBacktrack_spec path b dotdot hwf (b.w - 1) (by omega)]
              simp only
              have hle := backtrack_le b.content dotdot (b.w - 1)
              obtain ⟨hwf1, hc1⟩ := lazybuf_setw path b
                (backtrack b.content dotdot (b.w - 1)) hwf (by omega)
              obtain ⟨b2, hb2, hwf2, hc2⟩ := ih (r + 2) _ dotdot hwf1
                (by simp only; omega) (slack_of_end path rooted (r + 2) _ hend)
              exact ⟨b2, hb2, hwf2, by rw [hc2, hc1]⟩
            · rw [if_neg hd, if_neg hd]
              cases hroot : rooted with
              | true =>
                simp only [Bool.true_eq_false, if_false]
                have := ih (r + 2) b dotdot hwf (by omega)
                  (slack_of_end path rooted (r + 2) b hend)
                rw [hroot] at this
                exact this
              | false =>
                simp only [if_true]
                by_cases hw0 : 0 < b.w
                · have hlt : b.w < r := by
                    rcases hslack path[r] hget h1 with h | h | h
                    · exact h
                    · omega
                    · rw [hroot] at h; exact absurd h.1 (by simp)
                  obtain ⟨o1, ho1, hwf1, hw1, hc1⟩ :=
                    lazybuf_append_spec path b '/' hwf (by omega)
                  obtain ⟨o2, ho2, hwf2, hw2, hc2⟩ :=
                    lazybuf_append_spec path o1 '.' hwf1 (by omega)
                  obtain ⟨o3, ho3, hwf3, hw3, hc3⟩ :=
                    lazybuf_append_spec path o2 '.' hwf2 (by omega)
                  rw [if_pos hw0, if_pos hw0, ho1]
                  simp only
                  rw [ho2]
                  simp only
                  rw [ho3]
                  simp only
                  have := ih (r + 2) o3 o3.w hwf3 (by omega)
                    (slack_of_end path rooted (r + 2) o3 hend)
                  rw [hroot] at this
                  obtain ⟨b4, hb4, hwf4, hc4⟩ := this
                  refine ⟨b4, hb4, hwf4, ?_⟩
                  rw [hc4, hc3, hc2, hc1]
                  have e : o3.w = (b.content ++ ['/'] ++ ['.', '.']).length := by
                    simp only [List.length_append, hlen, List.length_cons, List.length_nil]
                    omega
                  rw [e]
                  simp
                · have hw00 : b.w = 0 := by omega
                  obtain ⟨o2, ho2, hwf2, hw2, hc2⟩ :=
                    lazybuf_append_spec path b '.' hwf (by omega)
                  obtain ⟨o3, ho3, hwf3, hw3, hc3⟩ :=
                    lazybuf_append_spec path o2 '.' hwf2 (by omega)
                  rw [if_neg hw0, if_neg hw0]
                  simp only
                  rw [ho2]
                  simp only
                  rw [ho3]
                  simp only
                  have := ih (r + 2) o3 o3.w hwf3 (by omega)
                    (slack_of_end path rooted (r + 2) o3 hend)
                  rw [hroot] at this
                  obtain ⟨b4, hb4, hwf4, hc4⟩ := this
                  refine ⟨b4, hb4, hwf4, ?_⟩
                  rw [hc4, hc3, hc2]
                  have e : o3.w = (b.content ++ ['.', '.']).length := by
                    simp only [List.length_append, hlen, List.length_cons, List.length_nil]
                    omega
                  rw [e]
                  simp
          · have h3' : ¬ (path[r] = '.' ∧ path[r + 1]? = some '.' ∧
                (r + 2 = path.length ∨ path[r + 2]? = some '/')) := by
              intro hcon
              apply h3
              have hr1 : r + 1 < path.length := by
                by_contra hc
                rw [List.getElem?_eq_none (by omega)] at hcon
                exact absurd hcon.2.1 (by simp)
              have hnil2 : path.drop (r + 2) = [] ↔ r + 2 = path.length := by
                rw [List.drop_eq_nil_iff]; omega
              rw [htail, hnil2, hhead2, hhead]
              exact hcon
            rw [if_neg h3, if_neg h3', hlen, ← hdrop, copyElem_eq]
            simp only
            have hend := dropWhile_notSlash_end (path.drop r)
            by_cases hcond : (rooted = true ∧ b.w ≠ 1) ∨ (rooted = false ∧ b.w ≠ 0)
            · have hlt : b.w < r := by
                rcases hslack path[r] hget h1 with h | h | h
                · exact h
                · rcases hcond with hc | hc
                  · rw [h.1] at hc; exact absurd hc.1 (by simp)
                  · exact absurd h.2 hc.2
                · rcases hcond with hc | hc
                  · exact absurd h.2 hc.2
                  · rw [h.1] at hc; exact absurd hc.1 (by simp)
              obtain ⟨o1, ho1, hwf1, hw1, hc1⟩ :=
                lazybuf_append_spec path b '/' hwf (by omega)
              rw [if_pos hcond, if_pos hcond, ho1]
              simp only
              obtain ⟨r2, o2, ho2, hwf2, hw2, hd2, hc2⟩ :=
                lazyCopy_spec path path.length r o1 hwf1 (by omega) (by omega)
              rw [ho2]
              simp only
              have hend2 : path.drop r2 = [] ∨ (path.drop r2).head? = some '/' := by
                rw [hd2]; exact hend
              obtain ⟨b4, hb4, hwf4, hc4⟩ := ih r2 o2 dotdot hwf2 hw2
                (slack_of_end path rooted r2 o2 hend2)
              exact ⟨b4, hb4, hwf4, by rw [hc4, hc2, hc1, hd2]⟩
            · rw [if_neg hcond, if_neg hcond]
              simp only
              obtain ⟨r2, o2, ho2, hwf2, hw2, hd2, hc2⟩ :=
                lazyCopy_spec path path.length r b hwf hw (by omega)
              rw [ho2]
              simp only
              have hend2 : path.drop r2 = [] ∨ (path.drop r2).head? = some '/' := by
                rw [hd2]; exact hend
              obtain ⟨b4, hb4, hwf4, hc4⟩ := ih r2 o2 dotdot hwf2 hw2
                (slack_of_end path rooted r2 o2 hend2)
              exact ⟨b4, hb4, hwf4, by rw [hc4, hc2, hd2]⟩
    · have hd : path.drop r = [] := List.drop_eq_nil_iff.mpr (by omega)
      rw [lazyLoop, if_neg hr, hd]
      exact ⟨b, rfl, hwf, by simp [cleanLoop]⟩

theorem lazybuf_string_spec (path : List Char) (b : lazybuf) (h : b.Wf path) :
    b.string = some b.content := by
  obtain ⟨hs, hw, hb⟩ := h
  unfold lazybuf.string lazybuf.content
  cases hbuf : b.buf with
  | none => simp only; rw [if_pos (by rw [hs]; exact hw)]
  | some l => simp only; rw [if_pos (by rw [hb l hbuf]; exact hw)]

/-- The source of `path.Clean`, with its `lazybuf` and its indices, never indexes out of
range and returns what `Clean` returns. -/
theorem CleanLazy_eq_Clean (path : Str) : CleanLazy path = some (Clean path) := by
  cases path with
  | nil => rfl
  | cons c t =>
    have hwf0 : lazybuf.Wf (c :: t) { s := c :: t, buf := none, w := 0 } :=
      ⟨rfl, Nat.zero_le _, fun l hl => by simp at hl⟩
    by_cases hc : c = '/'
    · subst hc
      obtain ⟨b1, hb1, hwf1, hw1, hc1⟩ := lazybuf_append_spec ('/' :: t) _ '/' hwf0 (by simp)
      have hslack : b1.Slack ('/' :: t) true 1 :=
        fun _ _ _ => Or.inr (Or.inr ⟨rfl, hw1⟩)
      have hw1' : b1.w = 1 := hw1
      obtain ⟨b2, hb2, hwf2, hc2⟩ := lazyLoop_spec ('/' :: t) true (t.length + 1) 1 b1 1 hwf1
        (by omega) hslack
      have hlen := lazybuf_content_length _ b2 hwf2
      simp only [CleanLazy, Clean, List.getElem?_cons_zero, List.head?_cons, decide_True,
        if_true, List.length_cons, List.tail_cons, hb1, hb2, lazybuf_string_spec _ b2 hwf2,
        reduceCtorEq, if_false]
      rw [hc2, hc1] at *
      simp only [lazybuf.content, List.take_zero, List.nil_append, List.drop_succ_cons,
        List.drop_zero] at *
      rw [← hlen]
      split <;> rfl
    · have hslack : lazybuf.Slack (c :: t) false 0 { s := c :: t, buf := none, w := 0 } :=
        fun _ _ _ => Or.inr (Or.inl ⟨rfl, rfl⟩)
      obtain ⟨b2, hb2, hwf2, hc2⟩ := lazyLoop_spec (c :: t) false (t.length + 1) 0 _ 0 hwf0
        (by simp) hslack
      have hlen := lazybuf_content_length _ b2 hwf2
      simp only [CleanLazy, Clean, List.getElem?_cons_zero, List.head?_cons, Option.some.injEq,
        hc, decide_False, List.length_cons, hb2, lazybuf_string_spec _ b2 hwf2, reduceCtorEq,
        if_false, Bool.false_eq_true]
      rw [hc2] at *
      simp only [lazybuf.content, List.take_zero, List.drop_zero] at *
      rw [← hlen]
      split <;> rfl

/-! ## `Clean` in terms of path components -/

theorem takeWhile_notSlash_eq_nil (t : List Char) :
    t.takeWhile notSlash = [] ↔ (t = [] ∨ t.head? = some '/') := by
  cases t with
  | nil => simp
  | cons c l =>
    by_cases hc : c = '/'
    · simp [hc, notSlash]
    · simp [hc, notSlash]

theorem dropWhile_notSlash_of_end (t : List Char) (h : t = [] ∨ t.head? = some '/') :
    t.dropWhile notSlash = t := by
  cases t with
  | nil => rfl
  | cons c l =>
    have hc : c = '/' := by simpa using h
    simp [hc, notSlash]

theorem slash_not_mem_takeWhile (t : List Char) : '/' ∉ t.takeWhile notSlash := by
  intro h
  have := List.mem_takeWhile_imp h
  simp [notSlash] at this

theorem components_slashfree_mem (p : Str) : ∀ c ∈ components p, '/' ∉ c := by
  induction p with
  | nil => simp [components]
  | cons a t ih =>
    intro c hc
    by_cases ha : a = '/'
    · simp only [components, ha, if_true, List.mem_cons] at hc
      rcases hc with h | h
      · simp [h]
      · exact ih c h
    · simp only [components, ha, if_false, List.mem_cons] at hc
      rcases hc with h | h
      · subst h
        have hne := components_ne_nil t
        cases hct : components t with
        | nil => exact absurd hct hne
        | cons x l =>
          have := ih x (by simp [hct])
          simp only [List.headD_cons, List.mem_cons, not_or]
          exact ⟨fun e => ha e.symm, this⟩
      · exact ih c (List.mem_of_mem_tail h)

theorem stepComp_inv (r : Bool) (st : Stack) (comp : Str) (h : st.Inv) (hc : '/' ∉ comp) :
    (stepComp r st comp).Inv := by
  unfold stepComp
  split
  · exact h
  · rename_i h1
    split
    · split
      · intro p hp
        exact h p (List.mem_of_mem_dropLast hp)
      · split
        · exact h
        · exact h
    · rename_i h2
      intro p hp
      simp only [List.mem_append, List.mem_singleton] at hp
      rcases hp with hp | hp
      · exact h p hp
      · subst hp
        simp only [not_or] at h1
        exact ⟨h1.1, h1.2, h2, hc⟩

theorem foldl_stepComp_inv (r : Bool) (cs : List Str) (st : Stack) (h : st.Inv)
    (hc : ∀ c ∈ cs, '/' ∉ c) : (cs.foldl (stepComp r) st).Inv := by
  induction cs generalizing st with
  | nil => exact h
  | cons a l ih =>
    simp only [List.foldl_cons]
    exact ih _ (stepComp_inv r st a h (hc a (by simp))) (fun c hcl => hc c (by simp [hcl]))

theorem sem_inv (r : Bool) (st : Stack) (p : Str) (h : st.Inv) : (sem r st p).Inv :=
  foldl_stepComp_inv r _ st h (components_slashfree_mem p)

theorem cleanLoop_spec (r : Bool) (fuel : Nat) : ∀ (rest : List Char) (st : Stack),
    rest.length ≤ fuel → st.Inv →
    cleanLoop r fuel rest (outOf r st) (dotdotOf r st) = outOf r (sem r st rest) := by
  induction fuel with
  | zero =>
    intro rest st hlen _
    have : rest = [] := List.length_eq_zero.mp (Nat.le_zero.mp hlen)
    subst this
    simp [cleanLoop, sem_nil]
  | succ fuel ih =>
    intro rest st hlen hinv
    cases rest with
    | nil => simp [cleanLoop, sem_nil]
    | cons c t =>
      have hlen1 : t.length ≤ fuel := by simpa using hlen
      by_cases h1 : c = '/'
      · subst h1
        rw [cleanLoop, if_pos rfl, sem_cons_slash]
        exact ih t st hlen1 hinv
      · by_cases h2 : c = '.' ∧ (t = [] ∨ t.head? = some '/')
        · rw [cleanLoop, if_neg h1, if_pos h2, ih t st hlen1 hinv, sem_takeWhile r st (c :: t)]
          have hc : notSlash c = true := by simp [notSlash, h1]
          have e1 : (c :: t).takeWhile notSlash = ['.'] := by
            rw [List.takeWhile_cons, if_pos hc, (takeWhile_notSlash_eq_nil t).mpr h2.2, h2.1]
          have e2 : (c :: t).dropWhile notSlash = t := by
            simp [List.dropWhile_cons, hc, dropWhile_notSlash_of_end t h2.2]
          rw [e1, e2]
          simp [stepComp]
        · by_cases h3 : c = '.' ∧ t.head? = some '.' ∧
              (t.tail = [] ∨ t.tail.head? = some '/')
          · rw [cleanLoop, if_neg h1, if_neg h2, if_pos h3, sem_takeWhile r st (c :: t)]
            obtain ⟨hc, ht, htt⟩ := h3
            cases t with
            | nil => simp at ht
            | cons d t2 =>
              have hd : d = '.' := by simpa using ht
              subst hc
              subst hd
              simp only [List.tail_cons] at htt ⊢
              have hlen2 : t2.length ≤ fuel := by
                simp only [List.length_cons] at hlen1
                omega
              have e1 : ('.' :: '.' :: t2).takeWhile notSlash = ['.', '.'] := by
                have : notSlash '.' = true := by decide
                simp [List.takeWhile_cons, this, (takeWhile_notSlash_eq_nil t2).mpr htt]
              have e2 : ('.' :: '.' :: t2).dropWhile notSlash = t2 := by
                have : notSlash '.' = true := by decide
                simp [List.dropWhile_cons, this, dropWhile_notSlash_of_end t2 htt]
              rw [e1, e2]
              obtain ⟨dd, ps⟩ := st
              rcases List.eq_nil_or_concat ps with hps | ⟨ps1, p, hps⟩
              · subst hps
                rw [if_neg (outOf_le_dotdot r dd)]
                cases r with
                | false =>
                  simp only [if_true]
                  rw [outOf_dotdot dd, dotdotOf_succ dd]
                  have := ih t2 ⟨dd + 1, []⟩ hlen2 (by intro p hp; simp at hp)
                  rw [this]
                  simp [stepComp]
                | true =>
                  simp only [Bool.true_eq_false, if_false]
                  rw [ih t2 ⟨dd, []⟩ hlen2 hinv]
                  simp [stepComp]
              · rw [List.concat_eq_append] at hps
                subst hps
                have hp : Plain p := hinv p (by simp)
                rw [if_pos (outOf_gt_dotdot r dd ps1 p hp.1), outOf_pop r dd ps1 p hp.2.2.2 hp.1]
                have hinv1 : Stack.Inv ⟨dd, ps1⟩ := fun q hq => hinv q (by simp [hq])
                have e3 : dotdotOf r ⟨dd, ps1 ++ [p]⟩ = dotdotOf r ⟨dd, ps1⟩ := rfl
                rw [e3, ih t2 ⟨dd, ps1⟩ hlen2 hinv1]
                simp [stepComp]
          · rw [cleanLoop, if_neg h1, if_neg h2, if_neg h3, sem_takeWhile r st (c :: t)]
            simp only [copyElem_eq]
            obtain ⟨dd, ps⟩ := st
            have hc : notSlash c = true := by simp [notSlash, h1]
            have hplain : Plain ((c :: t).takeWhile notSlash) := by
              refine ⟨?_, ?_, ?_, slash_not_mem_takeWhile _⟩
              · simp [List.takeWhile_cons, hc]
              · intro hcon
                simp only [List.takeWhile_cons, hc, if_true, List.cons.injEq] at hcon
                exact h2 ⟨hcon.1, (takeWhile_notSlash_eq_nil t).mp hcon.2⟩
              · intro hcon
                simp only [List.takeWhile_cons, hc, if_true, List.cons.injEq] at hcon
                obtain ⟨hc1, hcon2⟩ := hcon
                cases t with
                | nil => simp at hcon2
                | cons d t2 =>
                  by_cases hd : d = '/'
                  · simp [hd, notSlash] at hcon2
                  · have hd1 : notSlash d = true := by simp [notSlash, hd]
                    simp only [List.takeWhile_cons, hd1, if_true, List.cons.injEq] at hcon2
                    exact h3 ⟨hc1, by simp [hcon2.1], by
                      simpa using (takeWhile_notSlash_eq_nil t2).mp hcon2.2⟩
            rw [outOf_push r dd ps _ hinv]
            have e3 : dotdotOf r ⟨dd, ps⟩ = dotdotOf r ⟨dd, ps ++ [(c :: t).takeWhile notSlash]⟩ :=
              rfl
            have hlen3 : ((c :: t).dropWhile notSlash).length ≤ fuel := by
              simp only [List.dropWhile_cons, hc, if_true]
              exact le_trans (List.dropWhile_sublist _).length_le hlen1
            have hinv3 : Stack.Inv ⟨dd, ps ++ [(c :: t).takeWhile notSlash]⟩ := by
              intro q hq
              simp only [List.mem_append, List.mem_singleton] at hq
              rcases hq with hq | hq
              · exact hinv q hq
              · rw [hq]; exact hplain
            rw [e3, ih _ _ hlen3 hinv3]
            have hs : stepComp r ⟨dd, ps⟩ ((c :: t).takeWhile notSlash)
                = ⟨dd, ps ++ [(c :: t).takeWhile notSlash]⟩ := by
              simp [stepComp, hplain.1, hplain.2.1, hplain.2.2.1]
            rw [hs]

theorem init_inv : Stack.init.Inv := by
  intro p hp
  simp [Stack.init] at hp

theorem Clean_eq (path : Str) :
    Clean path =
      if outOf (isRooted path) (sem (isRooted path) Stack.init path) = [] then ['.']
      else outOf (isRooted path) (sem (isRooted path) Stack.init path) := by
  cases path with
  | nil => simp [Clean, isRooted, sem_nil, outOf, Stack.comps, Stack.init, joinSlash]
  | cons c t =>
    by_cases hc : c = '/'
    · subst hc
      have h := cleanLoop_spec true (t.length + 1) t Stack.init (by simp) init_inv
      have e1 : outOf true Stack.init = ['/'] := rfl
      have e2 : dotdotOf true Stack.init = 1 := rfl
      rw [e1, e2] at h
      simp only [Clean, isRooted, List.head?_cons, decide_True, if_true, List.length_cons,
        List.tail_cons, h, sem_cons_slash, List.length_eq_zero]
      simp
    · have h := cleanLoop_spec false (t.length + 1) (c :: t) Stack.init (by simp) init_inv
      have e1 : outOf false Stack.init = [] := rfl
      have e2 : dotdotOf false Stack.init = 0 := rfl
      rw [e1, e2] at h
      have hr : isRooted (c :: t) = false := by simp [isRooted, hc]
      rw [hr]
      simp only [Clean, List.head?_cons, Option.some.injEq, hc, decide_False, List.length_cons, h,
        List.length_eq_zero]
      simp

theorem Clean_ne_nil (path : Str) : Clean path ≠ [] := by
  rw [Clean_eq]
  split
  · simp
  · assumption

theorem Clean_congr (x y : Str) (hr : isRooted x = isRooted y)
    (hs : sem (isRooted x) Stack.init x = sem (isRooted x) Stack.init y) :
    Clean x = Clean y := by
  rw [Clean_eq x, Clean_eq y, ← hr, hs]

theorem foldl_push_plain (r : Bool) (ps : List Str) (st : Stack) (h : ∀ p ∈ ps, Plain p) :
    ps.foldl (stepComp r) st = ⟨st.dd, st.ps ++ ps⟩ := by
  induction ps generalizing st with
  | nil => simp
  | cons a l ih =>
    have ha := h a (by simp)
    have hs : stepComp r st a = ⟨st.dd, st.ps ++ [a]⟩ := by
      simp [stepComp, ha.1, ha.2.1, ha.2.2.1]
    rw [List.foldl_cons, hs, ih _ (fun p hp => h p (by simp [hp]))]
    simp

theorem foldl_comps_norm (r : Bool) (st : Stack) (cs : List Str) (hcs : ∀ c ∈ cs, '/' ∉ c) :
    (cs.foldl (stepComp false) Stack.init).comps.foldl (stepComp r) st
      = cs.foldl (stepComp r) st := by
  induction cs using List.reverseRecOn with
  | nil => simp [Stack.init, Stack.comps]
  | append_singleton l c ih =>
    have hl : ∀ c ∈ l, '/' ∉ c := fun x hx => hcs x (by simp [hx])
    have hc : '/' ∉ c := hcs c (by simp)
    have ih := ih hl
    have hinv : (l.foldl (stepComp false) Stack.init).Inv :=
      foldl_stepComp_inv false l _ init_inv hl
    rw [List.foldl_append, List.foldl_append, List.foldl_cons, List.foldl_nil, List.foldl_cons,
      List.foldl_nil, ← ih]
    generalize l.foldl (stepComp false) Stack.init = n at hinv ⊢
    obtain ⟨dd, ps⟩ := n
    by_cases h1 : c = [] ∨ c = ['.']
    · simp [stepComp, h1]
    · by_cases h2 : c = ['.', '.']
      · subst h2
        rcases List.eq_nil_or_concat ps with hps | ⟨ps1, p, hps⟩
        · subst hps
          have e : stepComp false ⟨dd, []⟩ ['.', '.'] = ⟨dd + 1, []⟩ := by simp [stepComp]
          rw [e]
          simp only [Stack.comps, List.append_nil]
          rw [List.replicate_succ', List.foldl_append]
          rfl
        · rw [List.concat_eq_append] at hps
          subst hps
          have hp : Plain p := hinv p (by simp)
          have e : stepComp false ⟨dd, ps1 ++ [p]⟩ ['.', '.'] = ⟨dd, ps1⟩ := by simp [stepComp]
          rw [e]
          simp only [Stack.comps]
          have e3 : (List.replicate dd dotdotElem ++ (ps1 ++ [p])).foldl (stepComp r) st
              = stepComp r ((List.replicate dd dotdotElem ++ ps1).foldl (stepComp r) st) p := by
            rw [← List.append_assoc, List.foldl_append]
            rfl
          rw [e3]
          generalize (List.replicate dd dotdotElem ++ ps1).foldl (stepComp r) st = x
          have e2 : stepComp r x p = ⟨x.dd, x.ps ++ [p]⟩ := by
            simp [stepComp, hp.1, hp.2.1, hp.2.2.1]
          rw [e2]
          simp [stepComp]
      · have e : stepComp false ⟨dd, ps⟩ c = ⟨dd, ps ++ [c]⟩ := by simp [stepComp, h1, h2]
        rw [e]
        simp only [Stack.comps]
        have e3 : (List.replicate dd dotdotElem ++ (ps ++ [c])).foldl (stepComp r) st
            = stepComp r ((List.replicate dd dotdotElem ++ ps).foldl (stepComp r) st) c := by
          rw [← List.append_assoc, List.foldl_append]
          rfl
        rw [e3]

theorem comps_slashfree (st : Stack) (h : st.Inv) : ∀ c ∈ st.comps, '/' ∉ c := by
  intro c hc
  rcases List.mem_append.mp hc with h1 | h1
  · rw [List.eq_of_mem_replicate h1]
    simp [dotdotElem]
  · exact (h c h1).2.2.2

theorem isRooted_joinSlash (cs : List Str) (h : ∀ c ∈ cs, c ≠ [] ∧ '/' ∉ c) :
    isRooted (joinSlash cs) = false := by
  cases cs with
  | nil => rfl
  | cons a l =>
    have ha := h a (by simp)
    cases a with
    | nil => exact absurd rfl ha.1
    | cons x xs =>
      have hx : x ≠ '/' := fun e => ha.2 (by simp [e])
      cases l with
      | nil => simp [joinSlash, isRooted, hx]
      | cons b l' => simp [joinSlash, isRooted, hx]

theorem isRooted_Clean (y : Str) : isRooted (Clean y) = isRooted y := by
  rw [Clean_eq]
  cases hr : isRooted y with
  | true => simp [outOf, isRooted]
  | false =>
    split
    · rfl
    · simp only [outOf, Bool.false_eq_true, if_false]
      have hinv := sem_inv false Stack.init y init_inv
      exact isRooted_joinSlash _ (fun c hc =>
        ⟨comps_ne_nil _ _ hinv c hc, comps_slashfree _ hinv c hc⟩)

theorem sem_Clean_of_unrooted (r : Bool) (st : Stack) (y : Str) (hy : isRooted y = false) :
    sem r st (Clean y) = sem r st y := by
  rw [Clean_eq, hy]
  have hinv := sem_inv false Stack.init y init_inv
  have hnorm := foldl_comps_norm r st (components y) (components_slashfree_mem y)
  simp only [outOf, Bool.false_eq_true, if_false]
  split
  · rename_i h
    have hc : (sem false Stack.init y).comps = [] :=
      (joinSlash_eq_nil _ (comps_ne_nil _ _ hinv)).mp h
    unfold sem at hc
    rw [hc] at hnorm
    simp only [List.foldl_nil] at hnorm
    unfold sem
    rw [← hnorm]
    simp [components, stepComp]
  · rename_i h
    have hc : (sem false Stack.init y).comps ≠ [] := by
      intro hcon
      rw [hcon] at h
      exact h rfl
    unfold sem at hc ⊢
    rw [components_joinSlash _ hc (comps_slashfree _ hinv)]
    exact hnorm

theorem stepComp_rooted_dd (st : Stack) (c : Str) : (stepComp true st c).dd = st.dd := by
  unfold stepComp
  split
  · rfl
  · split
    · split <;> simp
    · rfl

theorem foldl_rooted_dd (cs : List Str) (st : Stack) :
    (cs.foldl (stepComp true) st).dd = st.dd := by
  induction cs generalizing st with
  | nil => rfl
  | cons a l ih => rw [List.foldl_cons, ih, stepComp_rooted_dd]

theorem sem_Clean_init (y : Str) :
    sem (isRooted y) Stack.init (Clean y) = sem (isRooted y) Stack.init y := by
  cases hr : isRooted y with
  | false => exact sem_Clean_of_unrooted false Stack.init y hr
  | true =>
    rw [Clean_eq, hr]
    have hinv := sem_inv true Stack.init y init_inv
    have hdd : (sem true Stack.init y).dd = 0 := foldl_rooted_dd _ _
    generalize sem true Stack.init y = n at hinv hdd
    obtain ⟨dd, ps⟩ := n
    simp only at hdd
    subst hdd
    simp only [outOf, if_true]
    rw [if_neg (by simp), sem_cons_slash]
    by_cases hps : ps = []
    · subst hps
      simp [joinSlash, sem_nil, Stack.init]
    · unfold sem
      rw [components_joinSlash ps hps (fun c hc => (hinv c hc).2.2.2), foldl_push_plain _ _ _ hinv]
      simp [Stack.init]

/-! ## `Join` -/

theorem joinStep_nil (e : Str) : joinStep [] e = e := by
  by_cases h : e = []
  · simp [joinStep, h]
  · simp [joinStep, h]

theorem joinStep_of_ne_nil (buf e : Str) (h : buf ≠ []) : joinStep buf e = buf ++ '/' :: e := by
  have : 0 < buf.length := List.length_pos.mpr h
  simp [joinStep, this]

theorem foldl_joinStep_of_ne_nil (cs : List Str) (buf : Str) (h : buf ≠ []) (hcs : cs ≠ []) :
    cs.foldl joinStep buf = buf ++ '/' :: joinSlash cs := by
  induction cs generalizing buf with
  | nil => exact absurd rfl hcs
  | cons c l ih =>
    rw [List.foldl_cons, joinStep_of_ne_nil buf c h]
    cases l with
    | nil => simp [joinSlash]
    | cons d l' =>
      rw [ih (buf ++ '/' :: c) (by simp) (by simp), joinSlash_cons c (d :: l') (by simp)]
      simp

theorem flat_cons_nil (cs : List Str) : ([] :: cs).foldl joinStep [] = cs.foldl joinStep [] := by
  rw [List.foldl_cons, joinStep_nil]

theorem flat_cons_of_ne_nil (a : Str) (cs : List Str) (h : a ≠ []) :
    (a :: cs).foldl joinStep [] = joinSlash (a :: cs) := by
  rw [List.foldl_cons, joinStep_nil]
  cases cs with
  | nil => rfl
  | cons c l => rw [foldl_joinStep_of_ne_nil _ a h (by simp), joinSlash_cons a _ (by simp)]

theorem foldl_joinStep_eq_nil (cs : List Str) (buf : Str) :
    cs.foldl joinStep buf = [] ↔ buf = [] ∧ ∀ c ∈ cs, c = [] := by
  induction cs generalizing buf with
  | nil => simp
  | cons c l ih =>
    rw [List.foldl_cons, ih]
    by_cases hb : buf = []
    · subst hb
      rw [joinStep_nil]
      simp
    · rw [joinStep_of_ne_nil buf c hb]
      simp [hb]

theorem sum_length_eq_zero (cs : List Str) :
    (cs.map List.length).sum = 0 ↔ cs.foldl joinStep [] = [] := by
  rw [foldl_joinStep_eq_nil]
  induction cs with
  | nil => simp
  | cons c l ih =>
    simp only [List.map_cons, List.sum_cons, Nat.add_eq_zero_iff, ih, List.length_eq_zero,
      List.mem_cons, forall_eq_or_imp, true_and]

theorem Join_eq (elem : List Str) :
    Join elem = if elem.foldl joinStep [] = [] then [] else Clean (elem.foldl joinStep []) := by
  unfold Join
  by_cases h : elem.foldl joinStep [] = []
  · rw [if_pos ((sum_length_eq_zero elem).mpr h), if_pos h]
  · rw [if_neg (fun hc => h ((sum_length_eq_zero elem).mp hc)), if_neg h]

theorem Join_pair (a b : Str) :
    Join [a, b] = if joinStep a b = [] then [] else Clean (joinStep a b) := by
  rw [Join_eq]
  simp [joinStep_nil]

theorem Join_concat (segs : List Str) (k : Str) :
    Join (segs ++ [k]) =
      if joinStep (segs.foldl joinStep []) k = [] then []
      else Clean (joinStep (segs.foldl joinStep []) k) := by
  rw [Join_eq]
  simp [List.foldl_append]

theorem isRooted_append (x y : Str) (h : x ≠ []) : isRooted (x ++ y) = isRooted x := by
  cases x with
  | nil => exact absurd rfl h
  | cons c t => rfl

theorem sem_joinSlash_flat (r : Bool) (cs : List Str) (st : Stack) :
    sem r st (joinSlash cs) = sem r st (cs.foldl joinStep []) := by
  induction cs with
  | nil => rfl
  | cons a l ih =>
    by_cases ha : a = []
    · subst ha
      rw [flat_cons_nil, ← ih]
      cases l with
      | nil => rfl
      | cons b l' =>
        rw [joinSlash_cons [] (b :: l') (by simp)]
        exact sem_cons_slash r st _
    · rw [flat_cons_of_ne_nil a l ha]

theorem isRooted_flat (cs : List Str) (h : ∀ c ∈ cs, isRooted c = false) :
    isRooted (cs.foldl joinStep []) = false := by
  induction cs with
  | nil => rfl
  | cons a l ih =>
    by_cases ha : a = []
    · subst ha
      rw [flat_cons_nil]
      exact ih (fun c hc => h c (by simp [hc]))
    · rw [List.foldl_cons, joinStep_nil]
      cases l with
      | nil => exact h a (by simp)
      | cons b l' =>
        rw [foldl_joinStep_of_ne_nil _ a ha (by simp), isRooted_append a _ ha]
        exact h a (by simp)

/-! ## Trees -/

theorem treePath_singleton (a : Str) : treePath [a] = a := rfl

theorem treePath_cons (a b : Str) (rest : List Str) :
    treePath (a :: b :: rest) = Join [a, treePath (b :: rest)] := by
  simp [treePath, MakeTree, Tree.MakePath]

theorem MakeTree_MakePath (segs : List Str) :
    (MakeTree segs).map Tree.MakePath = some (treePath segs) := by
  cases segs <;> simp [treePath, MakeTree]

theorem treePath_unrooted (segs : List Str) (hne : segs ≠ [])
    (h : ∀ s ∈ segs, isRooted s = false) :
    (treePath segs = [] ↔ segs.foldl joinStep [] = []) ∧ isRooted (treePath segs) = false ∧
      ∀ (r : Bool) (st : Stack), sem r st (treePath segs) = sem r st (segs.foldl joinStep []) := by
  induction segs with
  | nil => exact absurd rfl hne
  | cons a l ih =>
    cases l with
    | nil =>
      have ha := h a (by simp)
      simp [treePath_singleton, joinStep_nil, ha]
    | cons b l' =>
      obtain ⟨ih1, ih2, ih3⟩ := ih (by simp) (fun s hs => h s (by simp [hs]))
      rw [treePath_cons, Join_pair]
      by_cases ha : a = []
      · subst ha
        rw [joinStep_nil, flat_cons_nil]
        by_cases ht : treePath (b :: l') = []
        · rw [if_pos ht]
          refine ⟨⟨fun _ => ih1.mp ht, fun _ => rfl⟩, rfl, ?_⟩
          intro r st
          rw [← ih3 r st, ht]
        · rw [if_neg ht]
          refine ⟨⟨fun hc => absurd hc (Clean_ne_nil _), fun hc => absurd (ih1.mpr hc) ht⟩, ?_, ?_⟩
          · rw [isRooted_Clean, ih2]
          · intro r st
            rw [sem_Clean_of_unrooted r st _ ih2, ih3]
      · have hra : isRooted a = false := h a (by simp)
        have hj : joinStep a (treePath (b :: l')) = a ++ '/' :: treePath (b :: l') :=
          joinStep_of_ne_nil _ _ ha
        have hr : isRooted (a ++ '/' :: treePath (b :: l')) = false := by
          rw [isRooted_append a _ ha, hra]
        have e1 : (if a ++ '/' :: treePath (b :: l') = [] then []
            else Clean (a ++ '/' :: treePath (b :: l'))) = Clean (a ++ '/' :: treePath (b :: l')) :=
          if_neg (by simp)
        rw [hj, e1, flat_cons_of_ne_nil a (b :: l') ha, joinSlash_cons a (b :: l') (by simp)]
        refine ⟨⟨fun hc => absurd hc (Clean_ne_nil _), fun hc => by simp at hc⟩, ?_, ?_⟩
        · rw [isRooted_Clean, hr]
        · intro r st
          rw [sem_Clean_of_unrooted r st _ hr, sem_append_slash, sem_append_slash, ih3,
            sem_joinSlash_flat]

theorem Join_treePath (segs : List Str) (k : Str) (hne : segs ≠ [])
    (h : ∀ s ∈ segs.tail, isRooted s = false) :
    Join [treePath segs, k] = Join (segs ++ [k]) := by
  rw [Join_pair, Join_concat]
  cases segs with
  | nil => exact absurd rfl hne
  | cons a l =>
    cases l with
    | nil => simp [treePath_singleton, joinStep_nil]
    | cons b l' =>
      simp only [List.tail_cons] at h
      obtain ⟨u1, u2, u3⟩ := treePath_unrooted (b :: l') (by simp) h
      have u4 := isRooted_flat (b :: l') h
      rw [treePath_cons, Join_pair]
      by_cases ha : a = []
      · subst ha
        rw [joinStep_nil, flat_cons_nil]
        by_cases ht : treePath (b :: l') = []
        · rw [if_pos ht, u1.mp ht]
        · have hf : (b :: l').foldl joinStep [] ≠ [] := fun hc => ht (u1.mpr hc)
          rw [if_neg ht, joinStep_of_ne_nil _ k (Clean_ne_nil _), joinStep_of_ne_nil _ k hf,
            if_neg (by simp), if_neg (by simp)]
          apply Clean_congr
          · rw [isRooted_append _ _ (Clean_ne_nil _), isRooted_append _ _ hf, isRooted_Clean,
              u2, u4]
          · rw [isRooted_append _ _ (Clean_ne_nil _), isRooted_Clean, u2, sem_append_slash,
              sem_append_slash, sem_Clean_of_unrooted _ _ _ u2, u3]
      · have hj : joinStep a (treePath (b :: l')) = a ++ '/' :: treePath (b :: l') :=
          joinStep_of_ne_nil _ _ ha
        have hr : isRooted (a ++ '/' :: treePath (b :: l')) = isRooted a :=
          isRooted_append a _ ha
        have hF : (a :: b :: l').foldl joinStep [] = a ++ '/' :: joinSlash (b :: l') := by
          rw [flat_cons_of_ne_nil a (b :: l') ha, joinSlash_cons a (b :: l') (by simp)]
        have e1 : (if a ++ '/' :: treePath (b :: l') = [] then []
            else Clean (a ++ '/' :: treePath (b :: l'))) = Clean (a ++ '/' :: treePath (b :: l')) :=
          if_neg (by simp)
        rw [hj, e1, hF, joinStep_of_ne_nil _ k (Clean_ne_nil _),
          joinStep_of_ne_nil _ k (by simp), if_neg (by simp), if_neg (by simp)]
        apply Clean_congr
        · rw [isRooted_append _ _ (Clean_ne_nil _), isRooted_append _ _ (by simp),
            isRooted_Clean, hr, isRooted_append a _ ha]
        · rw [isRooted_append _ _ (Clean_ne_nil _), isRooted_Clean, hr, sem_append_slash,
            sem_append_slash, ← hr, sem_Clean_init, hr, sem_append_slash, sem_append_slash, u3,
            sem_joinSlash_flat]

theorem trimRightLoop_spec (c : UInt8) (fuel : Nat) : ∀ s : List UInt8, s.length ≤ fuel →
    (∃ n, s = trimRightLoop c fuel s ++ List.replicate n c) ∧
      (trimRightLoop c fuel s).getLast? ≠ some c := by
  induction fuel with
  | zero =>
    intro s hs
    have : s = [] := List.length_eq_zero.mp (Nat.le_zero.mp hs)
    subst this
    exact ⟨⟨0, by simp [trimRightLoop]⟩, by simp [trimRightLoop]⟩
  | succ fuel ih =>
    intro s hs
    by_cases h : 0 < s.length ∧ s[s.length - 1]? = some c
    · rw [trimRightLoop, if_pos h]
      have hlen : (s.take (s.length - 1)).length ≤ fuel := by
        rw [List.length_take]
        omega
      obtain ⟨⟨n, hn⟩, hlast⟩ := ih (s.take (s.length - 1)) hlen
      refine ⟨⟨n + 1, ?_⟩, hlast⟩
      have hs1 : s = s.take (s.length - 1) ++ [c] := by
        have hne : s ≠ [] := List.length_pos.mp h.1
        have h1 := List.dropLast_append_getLast? c (by
          rw [List.getLast?_eq_getElem?]; exact h.2)
        rw [List.dropLast_eq_take] at h1
        exact h1.symm
      rw [List.replicate_succ', ← List.append_assoc, ← hn]
      exact hs1
    · rw [trimRightLoop, if_neg h]
      refine ⟨⟨0, by simp⟩, ?_⟩
      intro hcon
      apply h
      rw [List.getLast?_eq_getElem?] at hcon
      refine ⟨?_, hcon⟩
      cases s with
      | nil => simp at hcon
      | cons a l => simp

theorem trimRightByte_spec (s : List UInt8) (c : UInt8) :
    (∃ n, s = trimRightByte s c ++ List.replicate n c) ∧ (trimRightByte s c).getLast? ≠ some c :=
  trimRightLoop_spec c s.length s (le_refl _)

theorem trimRightByte_fixed (s : List UInt8) (c : UInt8) (h : s.getLast? ≠ some c) :
    trimRightByte s c = s := by
  unfold trimRightByte
  cases hs : s.length with
  | zero => rfl
  | succ n =>
    rw [trimRightLoop, if_neg]
    intro hcon
    apply h
    rw [List.getLast?_eq_getElem?]
    exact hcon.2

theorem TrimRight_toList (b : GoBytes) (c : UInt8) :
    (TrimRight b c).toList = trimRightByte b.toList c := by
  unfold TrimRight
  split
  · rename_i h
    have : b.toList = [] := List.length_eq_zero.mp h
    rw [this]
    rfl
  · rfl

theorem TrimRight_fixed (b : GoBytes) (c : UInt8) (h : b.toList.getLast? ≠ some c) :
    TrimRight b c = b := by
  unfold TrimRight
  split
  · rfl
  · rename_i hlen
    cases b with
    | none => exact absurd rfl hlen
    | some l =>
      have : trimRightByte l c = l := trimRightByte_fixed l c h
      simp only [GoBytes.toList, this]

theorem TrimRight_idem (b : GoBytes) (c : UInt8) :
    TrimRight (TrimRight b c) c = TrimRight b c := by
  apply TrimRight_fixed
  rw [TrimRight_toList]
  exact (trimRightByte_spec b.toList c).2

theorem joinSlash_eq_intercalate (cs : List Str) : joinSlash cs = List.intercalate ['/'] cs := by
  induction cs with
  | nil => rfl
  | cons a l ih =>
    cases l with
    | nil => simp [joinSlash, List.intercalate]
    | cons b l' =>
      rw [joinSlash_cons a (b :: l') (by simp), ih]
      simp [List.intercalate]

theorem Clean_joinSlash_plain (cs : List Str) (hne : cs ≠ []) (h : ∀ c ∈ cs, Plain c) :
    Clean (joinSlash cs) = joinSlash cs := by
  have hr : isRooted (joinSlash cs) = false :=
    isRooted_joinSlash cs (fun c hc => ⟨(h c hc).1, (h c hc).2.2.2⟩)
  have hs : sem false Stack.init (joinSlash cs) = ⟨0, cs⟩ := by
    unfold sem
    rw [components_joinSlash cs hne (fun c hc => (h c hc).2.2.2), foldl_push_plain _ _ _ h]
    simp [Stack.init]
  rw [Clean_eq, hr, hs]
  have ho : outOf false ⟨0, cs⟩ = joinSlash cs := by simp [outOf, Stack.comps]
  rw [ho, if_neg]
  intro hcon
  exact hne ((joinSlash_eq_nil cs (fun c hc => (h c hc).1)).mp hcon)

theorem treePath_plain (segs : List Str) (hne : segs ≠ []) (h : ∀ c ∈ segs, Plain c) :
    treePath segs = joinSlash segs := by
  induction segs with
  | nil => exact absurd rfl hne
  | cons a l ih =>
    cases l with
    | nil => rfl
    | cons b l' =>
      have ha := h a (by simp)
      rw [treePath_cons, ih (by simp) (fun c hc => h c (by simp [hc])), Join_pair,
        joinStep_of_ne_nil a _ ha.1, if_neg (by simp), ← joinSlash_cons a (b :: l') (by simp)]
      exact Clean_joinSlash_plain _ (by simp) h

/-! ## The claims -/

/-- C1, as stated, fails: for the segments `a`, `/`, `..` and the key `k` the address built
through the tree is `a/k`, the flat join of the four elements is `k`. -/
theorem incremental_address_differs_from_flat_join :
    (MakeValue "k".toList none).MakePath (MakeTree ["a".toList, "/".toList, "..".toList])
        = some "a/k".toList ∧
      Join (["a".toList, "/".toList, "..".toList] ++ ["k".toList]) = "k".toList ∧
      (MakeValue "k".toList none).MakePath (MakeTree ["a".toList, "/".toList, "..".toList])
        ≠ some (Join (["a".toList, "/".toList, "..".toList] ++ ["k".toList])) := by
  decide

/-- C1, amended: for a non-empty list of segments of which none after the first begins with
`/`, and any key `k`, the address `Value.MakePath(MakeTree(segs...))`, which is
`path.Join(MakeTree(segs...).MakePath(), k)`, equals the flat join `path.Join(segs..., k)`. -/
theorem Value_MakePath_eq_flat_Join (segs : List Str) (k : Str) (b : GoBytes)
    (hne : segs ≠ []) (h : ∀ s ∈ segs.tail, s.head? ≠ some '/') :
    (MakeValue k b).MakePath (MakeTree segs)
        = (MakeTree segs).map (fun t => Join [t.MakePath, k]) ∧
      (MakeValue k b).MakePath (MakeTree segs) = some (Join (segs ++ [k])) := by
  have hm := MakeTree_MakePath segs
  have hj := Join_treePath segs k hne (fun s hs => by simpa [isRooted] using h s hs)
  cases ht : MakeTree segs with
  | none => simp [ht] at hm
  | some t =>
    simp only [ht, Option.map_some', Option.some.injEq] at hm
    simp only [Value.MakePath, MakeValue, hm, hj, Option.map_some', and_self]

/-- An instance of C1, amended: the segments `a/..`, the empty segment, `../b`, `.` and the key
`/k//`: both addresses are `../b/k`. -/
theorem Value_MakePath_eq_flat_Join_witness :
    ["a/..".toList, [], "../b".toList, ".".toList] ≠ [] ∧
      (∀ s ∈ ["a/..".toList, [], "../b".toList, ".".toList].tail, s.head? ≠ some '/') ∧
      (MakeValue "/k//".toList none).MakePath
          (MakeTree ["a/..".toList, [], "../b".toList, ".".toList]) = some "../b/k".toList ∧
      Join (["a/..".toList, [], "../b".toList, ".".toList] ++ ["/k//".toList])
        = "../b/k".toList :=
  have h := Value_MakePath_eq_flat_Join ["a/..".toList, [], "../b".toList, ".".toList]
    "/k//".toList none (by decide) (by decide)
  ⟨by decide, by decide, h.2.trans (by decide), by decide⟩

/-- C2: for a non-empty list of plain segment names (non-empty, without `/`, neither `.` nor
`..`), `MakeTree(segs...).MakePath()` is the segments in order with one `/` between
consecutive ones. -/
theorem MakeTree_MakePath_plain (segs : List Str) (hne : segs ≠ [])
    (h : ∀ s ∈ segs, s ≠ [] ∧ '/' ∉ s ∧ s ≠ ['.'] ∧ s ≠ ['.', '.']) :
    (MakeTree segs).map Tree.MakePath = some (List.intercalate ['/'] segs) := by
  rw [MakeTree_MakePath, treePath_plain segs hne (fun c hc =>
    ⟨(h c hc).1, (h c hc).2.2.1, (h c hc).2.2.2, (h c hc).2.1⟩), joinSlash_eq_intercalate]

/-- An instance of C2: the segments `a`, `b`, `c` of the tests; the path is `a/b/c`. -/
theorem MakeTree_MakePath_plain_witness :
    ["a".toList, "b".toList, "c".toList] ≠ [] ∧
      (∀ s ∈ ["a".toList, "b".toList, "c".toList],
        s ≠ [] ∧ '/' ∉ s ∧ s ≠ ['.'] ∧ s ≠ ['.', '.']) ∧
      (MakeTree ["a".toList, "b".toList, "c".toList]).map Tree.MakePath
        = some "a/b/c".toList :=
  ⟨by decide, by decide,
    MakeTree_MakePath_plain ["a".toList, "b".toList, "c".toList] (by decide) (by decide)⟩

/-- C3, as stated, fails: on a store whose save reads the entry back into the record, both
writes succeed and the two save calls carry different content, `v` at the first and what the
first save put into the record at the second. -/
theorem setKey_second_save_sees_rewritten_record :
    (setKey rewritingStore.logged ((), []) "k".toList "t1".toList (some [118, 10])).calls =
        [Call.SaveTag (MakeValue "k".toList (some [118])) (MakeTree [Archive]) "t1".toList,
          Call.SaveTag (MakeValue "k".toList (some [120, 10])) none "t1".toList] ∧
      (setKey rewritingStore.logged ((), []) "k".toList "t1".toList (some [118, 10])).result
        = Except.ok () ∧
      (some [118] : GoBytes) ≠ some [120, 10] :=
  ⟨rfl, rfl, by decide⟩

/-- C3, amended: when both writes succeed, the store receives exactly two calls from `setKey`,
both saves, the first under the archive tree `MakeTree("archive")`, the second under the nil
tree, both with the same tag and the same record: its key is `key` at both, its content is
the trimmed `b` at the first and, at the second, the trimmed `b` again unless the first save
called `Unmarshal` on the record, and then the bytes that save put there.  The store is left
in the state the second save left. -/
theorem setKey_two_saves {σ ε : Type} (c : Store σ ε) (s : σ) (key tag : Str) (b : GoBytes)
    (h1 : (c.SaveTag s (MakeValue key (TrimRight b newline)) (MakeTree [Archive]) tag).err = none)
    (h2 : (c.SaveTag
        (c.SaveTag s (MakeValue key (TrimRight b newline)) (MakeTree [Archive]) tag).store
        ((MakeValue key (TrimRight b newline)).afterLoad
          (c.SaveTag s (MakeValue key (TrimRight b newline)) (MakeTree [Archive]) tag).unmarshal)
        none tag).err = none) :
    (setKey c.logged (s, []) key tag b).calls =
        [Call.SaveTag (MakeValue key (TrimRight b newline)) (MakeTree [Archive]) tag,
          Call.SaveTag
            ((MakeValue key (TrimRight b newline)).afterLoad
              (c.SaveTag s (MakeValue key (TrimRight b newline)) (MakeTree [Archive])
                tag).unmarshal)
            none tag] ∧
      MakeTree [Archive] = some ⟨"archive".toList, none⟩ ∧
      ((MakeValue key (TrimRight b newline)).afterLoad
          (c.SaveTag s (MakeValue key (TrimRight b newline)) (MakeTree [Archive])
            tag).unmarshal).key = key ∧
      ((MakeValue key (TrimRight b newline)).afterLoad
          (c.SaveTag s (MakeValue key (TrimRight b newline)) (MakeTree [Archive])
            tag).unmarshal).storage =
        ((c.SaveTag s (MakeValue key (TrimRight b newline)) (MakeTree [Archive])
            tag).unmarshal).getD (TrimRight b newline) ∧
      (setKey c.logged (s, []) key tag b).inner =
        (c.SaveTag
          (c.SaveTag s (MakeValue key (TrimRight b newline)) (MakeTree [Archive]) tag).store
          ((MakeValue key (TrimRight b newline)).afterLoad
            (c.SaveTag s (MakeValue key (TrimRight b newline)) (MakeTree [Archive])
              tag).unmarshal)
          none tag).store ∧
      (setKey c.logged (s, []) key tag b).result = Except.ok () := by
  refine ⟨?_, rfl, ?_, ?_, ?_, ?_⟩
  · simp only [setKey, Store.logged, Run.calls, h1, h2, List.nil_append, List.singleton_append]
  · cases (c.SaveTag s (MakeValue key (TrimRight b newline)) (MakeTree [Archive]) tag).unmarshal
      <;> rfl
  · cases (c.SaveTag s (MakeValue key (TrimRight b newline)) (MakeTree [Archive]) tag).unmarshal
      <;> rfl
  · simp only [setKey, Store.logged, Run.inner, h1, h2]
  · simp only [setKey, Store.logged, h1, h2]

/-- An instance of C3, amended: the in-memory store, empty, key `k`, tag `t1`, content `v` and
two newlines; its save leaves the record as it is, both calls carry `v`, and the store holds
the four entries of the two saves. -/
theorem setKey_two_saves_witness :
    (memStore.SaveTag [] (MakeValue "k".toList (TrimRight (some [118, 10, 10]) newline))
        (MakeTree [Archive]) "t1".toList).err = none ∧
      (setKey memStore.logged ([], []) "k".toList "t1".toList (some [118, 10, 10])).calls =
        [Call.SaveTag (MakeValue "k".toList (some [118])) (MakeTree [Archive]) "t1".toList,
          Call.SaveTag (MakeValue "k".toList (some [118])) none "t1".toList] ∧
      (setKey memStore.logged ([], []) "k".toList "t1".toList (some [118, 10, 10])).inner =
        [(("k".toList, "t1".toList), [118]), (("k".toList, "latest".toList), [118]),
          (("archive/k".toList, "t1".toList), [118]),
          (("archive/k".toList, "latest".toList), [118])] ∧
      (setKey memStore.logged ([], []) "k".toList "t1".toList (some [118, 10, 10])).result
        = Except.ok () :=
  have h := setKey_two_saves memStore [] "k".toList "t1".toList (some [118, 10, 10]) rfl rfl
  ⟨rfl, h.1.trans rfl, h.2.2.2.2.1.trans (by decide), h.2.2.2.2.2⟩

/-- C4, as stated, fails: on a store whose first save fails, the store receives one call from
`setKey`, the save under the archive tree, and no call under the nil tree. -/
theorem setKey_stops_at_first_failure :
    (setKey brokenStore.logged ((), []) "k".toList "t1".toList (some [118])).calls =
        [Call.SaveTag (MakeValue "k".toList (some [118])) (MakeTree [Archive]) "t1".toList] ∧
      ((setKey brokenStore.logged ((), []) "k".toList "t1".toList (some [118])).calls.map
        (fun call => call.tree.isNone)) = [false] ∧
      (setKey brokenStore.logged ((), []) "k".toList "t1".toList (some [118])).result
        = Except.error StoreError.Unavailable :=
  ⟨rfl, rfl, rfl⟩

/-- C4, amended: `setKey` attempts the archive write first and the namespace-free write only
after the first succeeded; when a write fails, `err` being the first error met, `setKey`
fails with `err`, the store having received one call if it was the first write and two if
the second. -/
theorem setKey_fails_with_first_error {σ ε : Type} (c : Store σ ε) (s : σ) (key tag : Str)
    (b : GoBytes) (err : ε)
    (h : (c.SaveTag s (MakeValue key (TrimRight b newline)) (MakeTree [Archive]) tag).err
          = some err ∨
        ((c.SaveTag s (MakeValue key (TrimRight b newline)) (MakeTree [Archive]) tag).err = none ∧
          (c.SaveTag
            (c.SaveTag s (MakeValue key (TrimRight b newline)) (MakeTree [Archive]) tag).store
            ((MakeValue key (TrimRight b newline)).afterLoad
              (c.SaveTag s (MakeValue key (TrimRight b newline)) (MakeTree [Archive])
                tag).unmarshal)
            none tag).err = some err)) :
    (setKey c.logged (s, []) key tag b).result = Except.error err ∧
      (setKey c.logged (s, []) key tag b).calls =
        (if (c.SaveTag s (MakeValue key (TrimRight b newline)) (MakeTree [Archive]) tag).err.isSome
        then [Call.SaveTag (MakeValue key (TrimRight b newline)) (MakeTree [Archive]) tag]
        else [Call.SaveTag (MakeValue key (TrimRight b newline)) (MakeTree [Archive]) tag,
          Call.SaveTag
            ((MakeValue key (TrimRight b newline)).afterLoad
              (c.SaveTag s (MakeValue key (TrimRight b newline)) (MakeTree [Archive])
                tag).unmarshal)
            none tag]) ∧
      (setKey c.logged (s, []) key tag b).result = (setKey c s key tag b).result ∧
      (setKey c.logged (s, []) key tag b).inner = (setKey c s key tag b).store := by
  rcases h with h | ⟨h1, h2⟩
  · refine ⟨?_, ?_, ?_, ?_⟩ <;> simp [setKey, Store.logged, Run.calls, Run.inner, h]
  · refine ⟨?_, ?_, ?_, ?_⟩ <;> simp [setKey, Store.logged, Run.calls, Run.inner, h1, h2]

/-- An instance of C4, amended: the store on which every call fails. -/
theorem setKey_fails_with_first_error_witness :
    (brokenStore.SaveTag () (MakeValue "k".toList (TrimRight (some [118]) newline))
        (MakeTree [Archive]) "t1".toList).err = some StoreError.Unavailable ∧
      (setKey brokenStore.logged ((), []) "k".toList "t1".toList (some [118])).result
        = Except.error StoreError.Unavailable ∧
      (setKey brokenStore.logged ((), []) "k".toList "t1".toList (some [118])).calls.length
        = 1 :=
  have h := setKey_fails_with_first_error brokenStore () "k".toList "t1".toList (some [118])
    StoreError.Unavailable (Or.inl rfl)
  ⟨rfl, h.1, by rw [h.2.1]; rfl⟩

/-- C5, as stated, fails: on a store whose save reads the entry back into the record, the
content `setKey` passes to the second save is not the trimmed `b`, and it ends in a
newline. -/
theorem setKey_second_save_content_not_trimmed :
    (setKey rewritingStore.logged ((), []) "k".toList "t1".toList (some [118, 10])).calls.map
        Call.content = [some (some [118]), some (some [120, 10])] ∧
      TrimRight (some [118, 10]) newline = some [118] ∧
      ([120, 10] : List UInt8).getLast? = some newline :=
  ⟨rfl, rfl, rfl⟩

/-- C5, amended: the first call the store receives from `setKey`, on every store, is the
archive save of a record whose content is `b` without its trailing newline bytes: `b` is
that content followed by newlines only, the content does not end in a newline, trimming it
again changes nothing, and a `b` that does not end in a newline is saved as it is.  The
second save, made when the first succeeded, is handed the same record, which holds that
content unless the first save called `Unmarshal` on the record. -/
theorem setKey_saves_trimmed {σ ε : Type} (c : Store σ ε) (s : σ) (key tag : Str)
    (b : GoBytes) :
    (setKey c.logged (s, []) key tag b).calls =
        Call.SaveTag (MakeValue key (TrimRight b newline)) (MakeTree [Archive]) tag ::
          (if (c.SaveTag s (MakeValue key (TrimRight b newline)) (MakeTree [Archive])
              tag).err.isSome then []
          else [Call.SaveTag
            ((MakeValue key (TrimRight b newline)).afterLoad
              (c.SaveTag s (MakeValue key (TrimRight b newline)) (MakeTree [Archive])
                tag).unmarshal)
            none tag]) ∧
      (Call.SaveTag (MakeValue key (TrimRight b newline)) (MakeTree [Archive]) tag).content
        = some (TrimRight b newline) ∧
      ((MakeValue key (TrimRight b newline)).afterLoad
          (c.SaveTag s (MakeValue key (TrimRight b newline)) (MakeTree [Archive])
            tag).unmarshal).storage =
        ((c.SaveTag s (MakeValue key (TrimRight b newline)) (MakeTree [Archive])
            tag).unmarshal).getD (TrimRight b newline) ∧
      (∃ n, b.toList = (TrimRight b newline).toList ++ List.replicate n newline) ∧
      (TrimRight b newline).toList.getLast? ≠ some newline ∧
      TrimRight (TrimRight b newline) newline = TrimRight b newline ∧
      (b.toList.getLast? = some newline ∨ TrimRight b newline = b) := by
  have hspec := trimRightByte_spec b.toList newline
  refine ⟨?_, rfl, ?_, ?_, ?_, TrimRight_idem b newline, ?_⟩
  · simp only [setKey, Store.logged, Run.calls]
    cases h1 : (c.SaveTag s (MakeValue key (TrimRight b newline)) (MakeTree [Archive])
        tag).err with
    | some e => simp
    | none =>
      simp only [Option.isSome_none, Bool.false_eq_true, if_false]
      split <;> simp
  · cases (c.SaveTag s (MakeValue key (TrimRight b newline)) (MakeTree [Archive]) tag).unmarshal
      <;> rfl
  · rw [TrimRight_toList]
    exact hspec.1
  · rw [TrimRight_toList]
    exact hspec.2
  · by_cases hl : b.toList.getLast? = some newline
    · exact Or.inl hl
    · exact Or.inr (TrimRight_fixed b newline hl)

/-- C6 fails on the code: a `Value` built with nil content holds nil, `Unmarshal` of nil bytes
leaves nil, so `Marshal` returns nil and `getKey` returns nil from a store that does not fill
the record; the record type of the tests turns nil into the empty slice at both places. -/
theorem Value_content_can_be_nil (key : Str) :
    (MakeValue key none).storage = none ∧
      (MakeValue key none).Marshal.1 = none ∧
      ((MakeValue key (some [118])).Unmarshal none).1.Marshal.1 = none ∧
      (getKey silentStore () key).result = Except.ok none ∧
      (MakeFile key none).Read.1 = some [] ∧
      ((MakeFile key (some [118])).Write none).1.Read.1 = some [] :=
  ⟨rfl, rfl, rfl, rfl, rfl, rfl⟩

/-- C7: `MakeTree` with no segment returns a non-nil tree of one node, named `unknown`, whose
`MakePath()` is `unknown`. -/
theorem MakeTree_zero_segments :
    MakeTree [] = some ⟨"unknown".toList, none⟩ ∧
      (MakeTree []).isSome = true ∧
      (MakeTree []).map Tree.Child = some none ∧
      (MakeTree []).map Tree.MakePath = some "unknown".toList :=
  ⟨rfl, rfl, rfl, rfl⟩

/-- C8 fails on the code: `MakeTree` with no segment does not return nil, as the test of the
empty tree asserts it should; it returns the node named `unknown`. -/
theorem MakeTree_zero_segments_not_nil :
    MakeTree [] ≠ none ∧ (MakeTree []).map Tree.Name = some "unknown".toList := by
  simp [MakeTree, Tree.Name]

/-- `MakeTree` never returns nil: the tree it returns is named after the first segment, and
`unknown` when there is no segment, and has a child exactly when there are two segments or
more. -/
theorem MakeTree_never_nil (nodes : List Str) :
    ∃ t, MakeTree nodes = some t ∧ t.Name = nodes.headD "unknown".toList ∧
      (t.Child.isSome = decide (2 ≤ nodes.length)) := by
  cases nodes with
  | nil => exact ⟨_, rfl, rfl, rfl⟩
  | cons a l =>
    cases l with
    | nil => exact ⟨_, rfl, rfl, rfl⟩
    | cons b l' =>
      refine ⟨_, rfl, rfl, ?_⟩
      simp [Tree.Child, MakeTree]

/-- C9: when its calls succeed, `rollback` is `GetVersion` on the archive tree followed by one
save of the record `GetVersion` filled, under the archive tree, with a fresh timestamp tag: it
runs as the two steps in sequence, the store receives these two calls and no other, so one
save, none under the nil tree, and no delete, and is left in the state the save left. -/
theorem rollback_is_getversion_then_save {σ ε : Type} (c : Store σ ε) (s : σ) (key tag : Str)
    (unixNano : Int)
    (h1 : (c.GetVersion s (MakeValue key none) (MakeTree [Archive]) tag).err = none)
    (h2 : (c.SaveTag (c.GetVersion s (MakeValue key none) (MakeTree [Archive]) tag).store
        ((MakeValue key none).afterLoad
          (c.GetVersion s (MakeValue key none) (MakeTree [Archive]) tag).unmarshal)
        (MakeTree [Archive]) (timestamp unixNano)).err = none) :
    rollback c.logged (s, []) key tag unixNano = rollbackSpec c.logged (s, []) key tag unixNano ∧
      rollback c s key tag unixNano = rollbackSpec c s key tag unixNano ∧
      (rollback c.logged (s, []) key tag unixNano).calls =
        [Call.GetVersion (MakeValue key none) (MakeTree [Archive]) tag,
          Call.SaveTag
            ((MakeValue key none).afterLoad
              (c.GetVersion s (MakeValue key none) (MakeTree [Archive]) tag).unmarshal)
            (MakeTree [Archive]) (timestamp unixNano)] ∧
      ((rollback c.logged (s, []) key tag unixNano).calls.filter Call.isSave).map Call.tree
        = [some ⟨"archive".toList, none⟩] ∧
      (rollback c.logged (s, []) key tag unixNano).calls.map Call.isDelete = [false, false] ∧
      (rollback c.logged (s, []) key tag unixNano).inner =
        (c.SaveTag (c.GetVersion s (MakeValue key none) (MakeTree [Archive]) tag).store
          ((MakeValue key none).afterLoad
            (c.GetVersion s (MakeValue key none) (MakeTree [Archive]) tag).unmarshal)
          (MakeTree [Archive]) (timestamp unixNano)).store ∧
      (rollback c.logged (s, []) key tag unixNano).result = Except.ok () := by
  refine ⟨?_, ?_, ?_, ?_, ?_, ?_, ?_⟩ <;>
    (simp only [rollback, rollbackSpec, stepGetVersion, stepSaveTag, Run.andThen, Store.logged,
      Run.calls, Run.inner, h1, h2, List.nil_append, List.singleton_append]
     try rfl)

/-- An instance of C9: the in-memory store holding the archived version `t1` of the key `k`. -/
theorem rollback_is_getversion_then_save_witness :
    (memStore.GetVersion [(("archive/k".toList, "t1".toList), [118])]
        (MakeValue "k".toList none) (MakeTree [Archive]) "t1".toList).err = none ∧
      rollback memStore.logged ([(("archive/k".toList, "t1".toList), [118])], []) "k".toList
          "t1".toList 1700
        = rollbackSpec memStore.logged ([(("archive/k".toList, "t1".toList), [118])], [])
          "k".toList "t1".toList 1700 ∧
      (rollback memStore.logged ([(("archive/k".toList, "t1".toList), [118])], []) "k".toList
          "t1".toList 1700).calls =
        [Call.GetVersion (MakeValue "k".toList none) (MakeTree [Archive]) "t1".toList,
          Call.SaveTag (MakeValue "k".toList (some [118])) (MakeTree [Archive])
            "1700".toList] ∧
      ((rollback memStore.logged ([(("archive/k".toList, "t1".toList), [118])], []) "k".toList
          "t1".toList 1700).calls.filter Call.isSave).map Call.tree
        = [some ⟨"archive".toList, none⟩] ∧
      (rollback memStore.logged ([(("archive/k".toList, "t1".toList), [118])], []) "k".toList
          "t1".toList 1700).calls.map Call.isDelete = [false, false] ∧
      (rollback memStore.logged ([(("archive/k".toList, "t1".toList), [118])], []) "k".toList
          "t1".toList 1700).inner =
        [(("archive/k".toList, "1700".toList), [118]),
          (("archive/k".toList, "latest".toList), [118]),
          (("archive/k".toList, "t1".toList), [118])] ∧
      (rollback memStore.logged ([(("archive/k".toList, "t1".toList), [118])], []) "k".toList
          "t1".toList 1700).result = Except.ok () :=
  have h := rollback_is_getversion_then_save memStore
    [(("archive/k".toList, "t1".toList), [118])] "k".toList "t1".toList 1700 rfl rfl
  ⟨rfl, h.1, h.2.2.1.trans rfl, h.2.2.2.1, h.2.2.2.2.1, h.2.2.2.2.2.1.trans (by decide),
    h.2.2.2.2.2.2⟩

/-- C10, as stated, fails: on a store that counts the requests it serves, `GetVersion` fails
with `NotFound`, `rollback` fails with it, and the store is not left as it was: the count
went from 0 to 1. -/
theorem rollback_failed_read_changes_store :
    (countingStore.GetVersion 0 (MakeValue "k".toList none) (MakeTree [Archive])
        "t1".toList).err = some StoreError.NotFound ∧
      (rollback countingStore 0 "k".toList "t1".toList 1700).result
        = Except.error StoreError.NotFound ∧
      (rollback countingStore 0 "k".toList "t1".toList 1700).store = 1 ∧
      (rollback countingStore 0 "k".toList "t1".toList 1700).store ≠ 0 :=
  ⟨rfl, rfl, rfl, by decide⟩

/-- C10, amended: when `GetVersion` fails in `rollback`, `rollback` fails with the same error,
the only call the store receives is that `GetVersion`, no save, and the store is left in the
state the failing `GetVersion` left. -/
theorem rollback_getversion_error {σ ε : Type} (c : Store σ ε) (s : σ) (key tag : Str)
    (unixNano : Int) (err : ε)
    (h : (c.GetVersion s (MakeValue key none) (MakeTree [Archive]) tag).err = some err) :
    (rollback c.logged (s, []) key tag unixNano).result = Except.error err ∧
      (rollback c.logged (s, []) key tag unixNano).calls =
        [Call.GetVersion (MakeValue key none) (MakeTree [Archive]) tag] ∧
      (rollback c.logged (s, []) key tag unixNano).calls.filter Call.isSave = [] ∧
      (rollback c.logged (s, []) key tag unixNano).inner
        = (c.GetVersion s (MakeValue key none) (MakeTree [Archive]) tag).store ∧
      (rollback c s key tag unixNano).result = Except.error err ∧
      (rollback c s key tag unixNano).store
        = (c.GetVersion s (MakeValue key none) (MakeTree [Archive]) tag).store := by
  refine ⟨?_, ?_, ?_, ?_, ?_, ?_⟩ <;>
    simp [rollback, Store.logged, Run.calls, Run.inner, h, Call.isSave]

/-- An instance of C10, amended: the in-memory store, empty; the tag `t1` of the key `k` was
never written, `rollback` fails with `NotFound`, and the store, which a read of this store
leaves as it is, stays empty. -/
theorem rollback_getversion_error_witness :
    (memStore.GetVersion [] (MakeValue "k".toList none) (MakeTree [Archive]) "t1".toList).err
        = some StoreError.NotFound ∧
      (rollback memStore.logged ([], []) "k".toList "t1".toList 1700).result
        = Except.error StoreError.NotFound ∧
      (rollback memStore.logged ([], []) "k".toList "t1".toList 1700).calls =
        [Call.GetVersion (MakeValue "k".toList none) (MakeTree [Archive]) "t1".toList] ∧
      (rollback memStore.logged ([], []) "k".toList "t1".toList 1700).calls.filter Call.isSave
        = [] ∧
      (rollback memStore.logged ([], []) "k".toList "t1".toList 1700).inner = [] :=
  have h := rollback_getversion_error memStore [] "k".toList "t1".toList 1700
    StoreError.NotFound rfl
  ⟨rfl, h.1, h.2.1, h.2.2.1, h.2.2.2.1⟩

end Tskv
